import Mathlib

/-!
Verification of the simdjson-go parsing frontend.

This file gives a shallow embedding of the parts of the repository that the
checked properties are about:

* the number literal grammar (`parseNumber` and its byte-classification table),
  together with embeddings of the Go strconv decoders it calls;
* the whitespace trimming performed by `parseMessage` (Go `bytes.TrimSpace`);
* the parse orchestrator (`initialize`, `parseMessage`, `Parse`, `ParseND`)
  with the two parsing stages abstracted as boolean/functional parameters;
* the NDJSON streaming sequencer of `ParseNDStream`.

Bytes are modelled as natural numbers below 256, byte slices as `List Nat`,
64-bit machine words as natural numbers (with explicit `% 2^64` where the code
relies on wrap-around), and Go errors as explicit sum types.
-/

set_option maxHeartbeats 1000000

namespace SimdJson

/-! ### Byte classification flags (src/unnamed/part_000) -/

def isPartOfNumberFlag : Nat := 1
def isFloatOnlyFlag : Nat := 2
def isMinusFlag : Nat := 4
def isEOVFlag : Nat := 8
def isDigitFlag : Nat := 16
def isMustHaveDigitNext : Nat := 32

/-- The 256-entry classification table `isNumberRune`, written as a function on
byte values.  Entries not listed in the Go array literal are zero. -/
def isNumberRune (c : Nat) : Nat :=
  if 48 ≤ c ∧ c ≤ 57 then isPartOfNumberFlag ||| isDigitFlag
  else if c = 46 then isPartOfNumberFlag ||| isFloatOnlyFlag ||| isMustHaveDigitNext
  else if c = 43 then isPartOfNumberFlag
  else if c = 45 then isPartOfNumberFlag ||| isMinusFlag ||| isMustHaveDigitNext
  else if c = 101 ∨ c = 69 then isPartOfNumberFlag ||| isFloatOnlyFlag
  else if c = 44 ∨ c = 125 ∨ c = 93 ∨ c = 32 ∨ c = 9 ∨ c = 13 ∨ c = 10 ∨ c = 58
    then isEOVFlag
  else 0

/-- `true` iff the head of the list is a byte whose class contains the digit
flag; used for the look-ahead `len(buf) < i+2 || isNumberRune[buf[i+1]]&isDigitFlag == 0`
(an empty remainder means the look-ahead fails). -/
def nextIsDigit : List Nat → Bool
  | [] => false
  | w :: _ => decide (isNumberRune w &&& isDigitFlag ≠ 0)

/-- The scanning loop of `parseNumber`.  It walks the buffer accumulating the
found-flags mask and the number of consumed characters (`pos`); `none` models
the early `return 0, 0` exits of the loop (unknown byte, or a byte flagged
`isMustHaveDigitNext` not followed by a digit). -/
def scanNum : List Nat → Nat → Nat → Option (Nat × Nat)
  | [], found, pos => some (found, pos)
  | v :: rest, found, pos =>
    let t := isNumberRune v
    if t = 0 then none
    else if t = isEOVFlag then some (found, pos)
    else if t &&& isMustHaveDigitNext ≠ 0 ∧ nextIsDigit rest = false then none
    else scanNum rest (found ||| t) (pos + 1)

/-! ### Go strconv decoders used by `parseNumber`

`strconv.ParseInt`, `strconv.ParseUint` and `strconv.ParseFloat` are embedded
by their documented semantics for base-10/decimal input.  (The inputs
`parseNumber` feeds them consist of bytes classified by `isNumberRune`, so the
hexadecimal, `Inf`/`NaN` and underscore forms accepted by `ParseFloat` are
unreachable and are not modelled.) -/

inductive PErr where
  | synErr : PErr
  | rangeErr : PErr
deriving DecidableEq

/-- The digit-accumulation loop of Go `strconv.ParseUint` (base 10): consumes
digits left to right and reports a range error at the first step whose
accumulated value exceeds `maxVal`, a syntax error at the first non-digit. -/
def parseUint64Loop : List Nat → Nat → Nat → Except PErr Nat
  | [], n, _ => .ok n
  | c :: rest, n, maxVal =>
    if 48 ≤ c ∧ c ≤ 57 then
      if maxVal < n * 10 + (c - 48) then .error .rangeErr
      else parseUint64Loop rest (n * 10 + (c - 48)) maxVal
    else .error .synErr

/-- Go `strconv.ParseUint(s, 10, 64)`: no sign is permitted. -/
def goParseUint (s : List Nat) : Except PErr Nat :=
  match s with
  | [] => .error .synErr
  | _ :: _ => parseUint64Loop s 0 (2 ^ 64 - 1)

/-- Go `strconv.ParseInt(s, 10, 64)`: an optional single sign, then digits; the
unsigned magnitude is computed first and then checked against the signed
64-bit bounds (a magnitude overflow inside the digit loop is also reported as
a range error, as in Go). -/
def goParseInt (s : List Nat) : Except PErr Int :=
  match s with
  | [] => .error .synErr
  | c :: rest =>
    let neg : Bool := decide (c = 45)
    let digits := if c = 43 ∨ c = 45 then rest else s
    match digits with
    | [] => .error .synErr
    | _ :: _ =>
      match parseUint64Loop digits 0 (2 ^ 64 - 1) with
      | .error e => .error e
      | .ok un =>
        if neg = false ∧ 2 ^ 63 ≤ un then .error .rangeErr
        else if neg = true ∧ 2 ^ 63 < un then .error .rangeErr
        else if neg then .ok (-(un : Int)) else .ok (un : Int)

/-- Fuel-based bit length: `bitLenAux n n` is the number of binary digits of
`n` (0 for 0).  The fuel argument makes the recursion structural so that the
kernel can evaluate it. -/
def bitLenAux : Nat → Nat → Nat
  | 0, _ => 0
  | f + 1, n => if n = 0 then 0 else bitLenAux f (n / 2) + 1

def bitLen (n : Nat) : Nat := bitLenAux n n

/-- `cmpPow num den k` decides `num / den ≥ 2 ^ k` exactly (as rationals). -/
def cmpPow (num den : Nat) (k : Int) : Bool :=
  if 0 ≤ k then decide (den * 2 ^ k.toNat ≤ num)
  else decide (den ≤ num * 2 ^ (-k).toNat)

/-- Round-to-nearest, ties-to-even conversion of the exact decimal value
`(-1)^neg * mant * 10^e10` to IEEE-754 binary64 bits.  `none` models overflow
to infinity, the case in which Go `strconv.ParseFloat` reports
`strconv.ErrRange` (underflow to zero is not an error in Go).  This is the
documented rounding semantics of `strconv.ParseFloat`. -/
def floatBits64 (neg : Bool) (mant : Nat) (e10 : Int) : Option Nat :=
  let signPre : Nat := if neg then 2 ^ 63 else 0
  if mant = 0 then some signPre
  else
    let num := mant * 10 ^ (max e10 0).toNat
    let den := 10 ^ (max (-e10) 0).toNat
    -- e2 is the floor of the base-2 logarithm of num/den
    let g : Int := (bitLen num : Int) - (bitLen den : Int)
    let e2 : Int := if cmpPow num den g then g else g - 1
    -- clamp at the minimum normal exponent; below it we round at the
    -- subnormal grid (LSB weight 2^-1074)
    let e2a : Int := if e2 < -1022 then -1022 else e2
    let sh : Int := 52 - e2a
    let A := num * 2 ^ (max sh 0).toNat
    let B := den * 2 ^ (max (-sh) 0).toNat
    let q := A / B
    let r := A % B
    let s := if B < 2 * r then q + 1
      else if 2 * r < B then q
      else if q % 2 = 1 then q + 1 else q
    let p := if s = 2 ^ 53 then ((2 ^ 52 : Nat), e2a + 1) else (s, e2a)
    if p.1 < 2 ^ 52 then some (signPre + p.1)
    else if 1023 < p.2 then none
    else some (signPre + (p.2 + 1023).toNat * 2 ^ 52 + (p.1 - 2 ^ 52))

def isDigitB (c : Nat) : Bool := decide (48 ≤ c) && decide (c ≤ 57)

/-- Decimal value of a digit string, most significant digit first. -/
def natOfDigits (ds : List Nat) : Nat := ds.foldl (fun a c => a * 10 + (c - 48)) 0

/-- Go `strconv.ParseFloat(s, 64)` on decimal input: grammar
`[+|-] digits [. digits] [ (e|E) [+|-] digits ]` with at least one mantissa
digit and, when an exponent marker is present, at least one exponent digit and
nothing after them.  The value is converted by `floatBits64`; `none` covers
both syntax and range errors (the caller `parseNumber` treats them alike). -/
def goParseFloat (s : List Nat) : Option Nat :=
  let pr := match s with
    | 43 :: t => (false, t)
    | 45 :: t => (true, t)
    | _ => (false, s)
  let neg := pr.1
  let s1 := pr.2
  let d1 := s1.takeWhile isDigitB
  let s2 := s1.dropWhile isDigitB
  let fr := match s2 with
    | 46 :: t => (t.takeWhile isDigitB, t.dropWhile isDigitB)
    | _ => (([] : List Nat), s2)
  let d2 := fr.1
  let s3 := fr.2
  if d1 = [] ∧ d2 = [] then none
  else
    let mant := natOfDigits (d1 ++ d2)
    match s3 with
    | [] => floatBits64 neg mant (-(d2.length : Int))
    | c :: t =>
      if c = 101 ∨ c = 69 then
        let ep := match t with
          | 43 :: u => ((1 : Int), u)
          | 45 :: u => ((-1 : Int), u)
          | _ => ((1 : Int), t)
        let ed := ep.2.takeWhile isDigitB
        let t2 := ep.2.dropWhile isDigitB
        if ed = [] ∨ t2 ≠ [] then none
        else floatBits64 neg mant (ep.1 * (natOfDigits ed : Int) - (d2.length : Int))
      else none

/-! ### Tape tag constants

Modelled from the spec: the tag/payload layout of tape cells (`Tag`,
`JSONTAGOFFSET`, `FloatOverflowedInteger`) is defined outside the files under
src/; the spec only requires the tags to be distinct values placed in the high
bits of a 64-bit cell, with float flags in the low bits. -/

def JSONTAGOFFSET : Nat := 56
def TagEnd : Nat := 0
def TagInteger : Nat := 108
def TagUint : Nat := 117
def TagFloat : Nat := 100
def FloatOverflowedInteger : Nat := 1

/-! ### parseNumber (src/unnamed/part_000) -/

/-- The tail of `parseNumber`: the float leading-zero guard followed by the
`strconv.ParseFloat` attempt.  `ft` is the accumulated float tag word. -/
def floatFinish (token : List Nat) (pos ft : Nat) : Nat × Nat :=
  if 1 < pos ∧ token.getD 0 0 = 48 ∧ isNumberRune (token.getD 1 0) &&& isFloatOnlyFlag = 0
    then (0, 0)
  else
    match goParseFloat token with
    | some bits => (ft, bits)
    | none => (0, 0)

/-- The integer branch of `parseNumber` after the leading-zero guards:
`strconv.ParseInt`, then (for unsigned tokens) `strconv.ParseUint`, falling
through to the float tail with the overflowed-integer flag accumulated on
range errors. -/
def parseNumInt (token : List Nat) (found pos : Nat) : Nat × Nat :=
  let floatTag := TagFloat <<< JSONTAGOFFSET
  match goParseInt token with
  | .ok v => (TagInteger <<< JSONTAGOFFSET, (v % (2 ^ 64 : Int)).toNat)
  | .error e1 =>
    let ft1 := if e1 = PErr.rangeErr then floatTag ||| FloatOverflowedInteger else floatTag
    if found &&& isMinusFlag = 0 then
      match goParseUint token with
      | .ok u => (TagUint <<< JSONTAGOFFSET, u)
      | .error e2 =>
        let ft2 := if e2 = PErr.rangeErr then ft1 ||| FloatOverflowedInteger else ft1
        floatFinish token pos ft2
    else floatFinish token pos ft1

/-- `parseNumber` from src/unnamed/part_000: scans a candidate number at the
start of `buf`, stopping at the first end-of-value byte, and decodes it to a
`(tag word, value word)` pair.  `(0, 0)` is the not-a-number signal (tag
`TagEnd`). -/
def parseNumber (buf : List Nat) : Nat × Nat :=
  match scanNum buf 0 0 with
  | none => (0, 0)
  | some (found, pos) =>
    if pos = 0 then (0, 0)
    else
      let token := buf.take pos
      if found &&& isFloatOnlyFlag = 0 ∧ pos ≤ 20 then
        if found &&& isMinusFlag = 0 then
          if 1 < pos ∧ token.getD 0 0 = 48 then (0, 0)
          else parseNumInt token found pos
        else
          if 2 < pos ∧ token.getD 1 0 = 48 then (0, 0)
          else parseNumInt token found pos
      else if found &&& isFloatOnlyFlag = 0 then
        floatFinish token pos ((TagFloat <<< JSONTAGOFFSET) ||| FloatOverflowedInteger)
      else
        floatFinish token pos (TagFloat <<< JSONTAGOFFSET)

/-! ### Syntactically valid JSON numbers and the reference decoder -/

structure JsonExp where
  eChar : Nat
  sign : Option Nat
  digits : List Nat
deriving DecidableEq

/-- A JSON number split into its grammatical components: optional minus sign,
integer part, optional fraction digits, optional exponent (marker character,
optional sign character, digits). -/
structure JsonNum where
  neg : Bool
  ip : List Nat
  frac : Option (List Nat)
  exp : Option JsonExp
deriving DecidableEq

def allDigitsB (l : List Nat) : Bool := l.all isDigitB

/-- The JSON number grammar: the integer part is `0` or starts with a nonzero
digit; fraction and exponent digit runs are nonempty; the exponent marker is
`e` or `E` and its sign, when present, is `+` or `-`. -/
def validNumB (n : JsonNum) : Bool :=
  (!n.ip.isEmpty) && allDigitsB n.ip &&
    (decide (n.ip.length ≤ 1) || decide (n.ip.headD 0 ≠ 48)) &&
  (match n.frac with
   | none => true
   | some l => !l.isEmpty && allDigitsB l) &&
  (match n.exp with
   | none => true
   | some ex =>
     (decide (ex.eChar = 101) || decide (ex.eChar = 69)) &&
     (match ex.sign with
      | none => true
      | some c => decide (c = 43) || decide (c = 45)) &&
     (!ex.digits.isEmpty) && allDigitsB ex.digits)

def ValidNum (n : JsonNum) : Prop := validNumB n = true

def fracRender : Option (List Nat) → List Nat
  | none => []
  | some l => 46 :: l

def expRender : Option JsonExp → List Nat
  | none => []
  | some ex => ex.eChar :: ((match ex.sign with | none => [] | some c => [c]) ++ ex.digits)

/-- The byte string of the number. -/
def render (n : JsonNum) : List Nat :=
  (if n.neg then [45] else []) ++ n.ip ++ fracRender n.frac ++ expRender n.exp

def fracDigits (n : JsonNum) : List Nat := n.frac.getD []

def mantOf (n : JsonNum) : Nat := natOfDigits (n.ip ++ fracDigits n)

/-- Decimal exponent of the number: explicit exponent minus the number of
fraction digits, so that the exact value is `± mantOf n * 10 ^ e10Of n`. -/
def e10Of (n : JsonNum) : Int :=
  (match n.exp with
   | none => (0 : Int)
   | some ex => (if ex.sign = some 45 then (-1 : Int) else 1) * (natOfDigits ex.digits : Int)) -
  ((fracDigits n).length : Int)

/-- A byte at which the number scanner stops (comma, closing brackets,
whitespace, colon). -/
def isEOVByte (e : Nat) : Prop := isNumberRune e = isEOVFlag

/-- Modelled from the spec: the reference decimal decoder of §4.1/§8.  A
number in integer notation is tagged `Integer` when it fits in a signed 64-bit
word (payload in two's complement), else `Uint` when it fits in an unsigned
64-bit word, else it falls through to the correctly rounded binary64 value
with the overflowed-integer flag; a number in float notation is tagged `Float`
with the correctly rounded binary64 payload.  `none` marks a value outside
binary64 range. -/
def refDecode (n : JsonNum) : Option (Nat × Nat) :=
  if n.frac = none ∧ n.exp = none then
    let v : Int := (if n.neg then -1 else 1) * (natOfDigits n.ip : Int)
    if -(2 ^ 63) ≤ v ∧ v ≤ 2 ^ 63 - 1 then
      some (TagInteger <<< JSONTAGOFFSET, (v % (2 ^ 64 : Int)).toNat)
    else if 0 ≤ v ∧ v ≤ 2 ^ 64 - 1 then
      some (TagUint <<< JSONTAGOFFSET, v.toNat)
    else
      match floatBits64 n.neg (natOfDigits n.ip) 0 with
      | some bits => some ((TagFloat <<< JSONTAGOFFSET) ||| FloatOverflowedInteger, bits)
      | none => none
  else
    match floatBits64 n.neg (mantOf n) (e10Of n) with
    | some bits => some (TagFloat <<< JSONTAGOFFSET, bits)
    | none => none

/-! ### bytes.TrimSpace (Go standard library, used by parseMessage)

`bytes.TrimSpace` trims leading and trailing Unicode white space with an
ASCII fast path that falls back to rune-by-rune trimming on the first
non-ASCII byte.  The UTF-8 decoding and `unicode.IsSpace` predicate are
embedded from their documented semantics. -/

def runeError : Nat := 0xFFFD

/-- UTF-8 decoding of the first rune (Go `utf8.DecodeRune`): returns the rune
and the number of bytes consumed; invalid or incomplete encodings decode to
`(RuneError, 1)`, the empty input to `(RuneError, 0)`. -/
def decodeRune : List Nat → Nat × Nat
  | [] => (runeError, 0)
  | c :: rest =>
    if c < 128 then (c, 1)
    else if 194 ≤ c ∧ c ≤ 223 then
      match rest with
      | c1 :: _ =>
        if 128 ≤ c1 ∧ c1 ≤ 191 then ((c - 192) * 64 + (c1 - 128), 2) else (runeError, 1)
      | [] => (runeError, 1)
    else if 224 ≤ c ∧ c ≤ 239 then
      let lo := if c = 224 then 160 else 128
      let hi := if c = 237 then 159 else 191
      match rest with
      | c1 :: c2 :: _ =>
        if lo ≤ c1 ∧ c1 ≤ hi ∧ 128 ≤ c2 ∧ c2 ≤ 191 then
          ((c - 224) * 4096 + (c1 - 128) * 64 + (c2 - 128), 3)
        else (runeError, 1)
      | _ => (runeError, 1)
    else if 240 ≤ c ∧ c ≤ 244 then
      let lo := if c = 240 then 144 else 128
      let hi := if c = 244 then 143 else 191
      match rest with
      | c1 :: c2 :: c3 :: _ =>
        if lo ≤ c1 ∧ c1 ≤ hi ∧ 128 ≤ c2 ∧ c2 ≤ 191 ∧ 128 ≤ c3 ∧ c3 ≤ 191 then
          ((c - 240) * 262144 + (c1 - 128) * 4096 + (c2 - 128) * 64 + (c3 - 128), 4)
        else (runeError, 1)
      | _ => (runeError, 1)
    else (runeError, 1)

/-- A byte that can start a rune (not a continuation byte). -/
def runeStart (c : Nat) : Bool := decide (c < 128 ∨ 192 ≤ c)

/-- UTF-8 decoding of the last rune (Go `utf8.DecodeLastRune`), working on
the reversed byte list: look back at most four bytes for a rune-start byte
and require the decoded width to reach exactly the end of the slice.
`(rev.take n).reverse` is the length-`n` suffix of the original list. -/
def decodeLastRuneRev : List Nat → Nat × Nat
  | [] => (runeError, 0)
  | c0 :: t =>
    if c0 < 128 then (c0, 1)
    else
      let cand : Option Nat :=
        match t with
        | b1 :: t1 =>
          if runeStart b1 then some 2
          else match t1 with
            | b2 :: t2 =>
              if runeStart b2 then some 3
              else match t2 with
                | b3 :: _ => if runeStart b3 then some 4 else none
                | [] => none
            | [] => none
        | [] => none
      match cand with
      | some n =>
        let d := decodeRune ((c0 :: t).take n).reverse
        if d.2 = n then d else (runeError, 1)
      | none =>
        if (c0 :: t).length ≤ 4 then
          let d := decodeRune (c0 :: t).reverse
          if d.2 = (c0 :: t).length then d else (runeError, 1)
        else (runeError, 1)

def decodeLastRune (s : List Nat) : Nat × Nat := decodeLastRuneRev s.reverse

/-- Go `unicode.IsSpace` on rune values. -/
def isSpaceGo (r : Nat) : Bool :=
  if r ≤ 255 then
    decide (r = 9 ∨ r = 10 ∨ r = 11 ∨ r = 12 ∨ r = 13 ∨ r = 32 ∨ r = 133 ∨ r = 160)
  else
    decide (r = 5760 ∨ (8192 ≤ r ∧ r ≤ 8202) ∨ r = 8232 ∨ r = 8233 ∨
      r = 8239 ∨ r = 8287 ∨ r = 12288)

/-- Go `bytes.TrimLeftFunc`, with a fuel argument making the recursion
structural (each step consumes at least one byte, so `s.length` fuel
suffices). -/
def trimLeftFuncF : Nat → (Nat → Bool) → List Nat → List Nat
  | 0, _, s => s
  | _ + 1, _, [] => []
  | f + 1, p, c :: rest =>
    if p (decodeRune (c :: rest)).1 then
      trimLeftFuncF f p ((c :: rest).drop (decodeRune (c :: rest)).2)
    else c :: rest

/-- Go `bytes.TrimRightFunc`, fuelled like `trimLeftFuncF`. -/
def trimRightFuncF : Nat → (Nat → Bool) → List Nat → List Nat
  | 0, _, s => s
  | _ + 1, _, [] => []
  | f + 1, p, c :: rest =>
    if p (decodeLastRune (c :: rest)).1 then
      trimRightFuncF f p
        ((c :: rest).take ((c :: rest).length - (decodeLastRune (c :: rest)).2))
    else c :: rest

/-- Go `bytes.TrimFunc`: left trim, then right trim. -/
def trimFunc (p : Nat → Bool) (s : List Nat) : List Nat :=
  let l := trimLeftFuncF s.length p s
  trimRightFuncF l.length p l

def asciiSpace (c : Nat) : Bool :=
  decide (c = 9 ∨ c = 10 ∨ c = 11 ∨ c = 12 ∨ c = 13 ∨ c = 32)

/-- The backward ASCII scan of `bytes.TrimSpace`; the argument and result are
reversed byte lists.  Hitting a non-ASCII byte falls back to `trimFunc` on the
remaining (forward) slice. -/
def tsr : List Nat → List Nat
  | [] => []
  | c :: t =>
    if 128 ≤ c then (trimFunc isSpaceGo (c :: t).reverse).reverse
    else if asciiSpace c then tsr t
    else c :: t

/-- Go `bytes.TrimSpace`: forward ASCII scan, backward ASCII scan, with the
Unicode-aware fallback on the first non-ASCII byte seen from either end. -/
def trimSpace : List Nat → List Nat
  | [] => []
  | c :: t =>
    if 128 ≤ c then trimFunc isSpaceGo (c :: t)
    else if asciiSpace c then trimSpace t
    else (tsr (c :: t).reverse).reverse

/-! ### Parse orchestrator (src/parse_json_amd64.go, src/unnamed/part_001) -/

/-- A Go slice buffer abstracted to its capacity and length; the
initialization claims are about capacity reuse, not contents.  A reallocation
replaces the capacity by the freshly computed hint, a truncation keeps the
capacity and resets the length. -/
structure Buf where
  cap : Nat
  len : Nat
deriving DecidableEq

/-- Modelled from the spec: the maximum nesting depth bound of the tape
builder (`maxdepth` is defined outside the files under src/; its concrete
value is irrelevant to the claims). -/
def maxdepth : Nat := 128

/-- The scratch state of `internalParsedJson` relevant to initialization. -/
structure InternalParsedJson where
  tape : Buf
  strings : Option Buf
  containingScopeOffset : Buf
deriving DecidableEq

/-- The buffer initialization of `internalParsedJson` from
src/parse_json_amd64.go (the method cannot keep its source name, which is a
Lean keyword): sizes the
tape to 15% and the strings arena to 10% (minimum 128) of the input length as
capacity hints, reallocating only when the existing capacity is below the
hint and truncating to length zero otherwise. -/
def initScratch (pj : InternalParsedJson) (size : Nat) : InternalParsedJson :=
  let avgTapeSize := size * 15 / 100
  let tape1 := if pj.tape.cap < avgTapeSize then Buf.mk avgTapeSize 0
    else Buf.mk pj.tape.cap 0
  let stringsSize := if size / 10 < 128 then 128 else size / 10
  let strings1 := match pj.strings with
    | some b => if stringsSize ≤ b.cap then some (Buf.mk b.cap 0)
      else some (Buf.mk stringsSize 0)
    | none => some (Buf.mk stringsSize 0)
  let cso1 := if pj.containingScopeOffset.cap < maxdepth then Buf.mk maxdepth 0
    else Buf.mk pj.containingScopeOffset.cap 0
  InternalParsedJson.mk tape1 strings1 cso1

/-- A parse result: the retained message plus the abstract tape and strings
contents produced by the two stages. -/
structure ParsedJson where
  message : List Nat
  tape : List Nat
  strings : List Nat
deriving DecidableEq

/-- The failures surfaced by the orchestrator and the entry points, with the
error strings used in the source. -/
inductive ParseFail where
  | stage1Err : ParseFail
  | stage2Err : ParseFail
  | unsupportedHost : ParseFail
deriving DecidableEq

def errorMessage : ParseFail → String
  | .stage1Err => "Failed to find all structural indices for stage 1"
  | .stage2Err => "Bad parsing while executing stage 2"
  | .unsupportedHost => "Host CPU does not meet target specs"

/-- The two parsing stages are external collaborators (stage 1 finds the
structural indices, stage 2 builds the tape); they are modelled as oracle
functions of the trimmed message, with `tapeOf`/`stringsOf` the abstract
contents produced on success. -/
structure Stages where
  stage1ok : List Nat → Bool
  stage2ok : List Nat → Bool
  tapeOf : List Nat → List Nat
  stringsOf : List Nat → List Nat

/-- `(*internalParsedJson).parseMessage`: trims the message, then runs the two
stages — concurrently for messages over 8 KiB (both stages always run and a
stage-1 failure is returned in preference to a stage-2 failure), sequentially
otherwise (stage 2 runs only after stage 1 succeeds). -/
def parseMessage (st : Stages) (msg : List Nat) : Except ParseFail ParsedJson :=
  let m := trimSpace msg
  if 8 * 1024 < m.length then
    let err : Option ParseFail := if st.stage2ok m then none else some .stage2Err
    let errStage1 : Option ParseFail := if st.stage1ok m then none else some .stage1Err
    match errStage1 with
    | some e => .error e
    | none =>
      match err with
      | some e => .error e
      | none => .ok (ParsedJson.mk m (st.tapeOf m) (st.stringsOf m))
  else
    if st.stage1ok m = false then .error .stage1Err
    else if st.stage2ok m = false then .error .stage2Err
    else .ok (ParsedJson.mk m (st.tapeOf m) (st.stringsOf m))

/-- `Parse` from src/unnamed/part_001: the capability gate (the `supported`
parameter stands for `SupportedCPU()`), then `parseMessage` on the raw
input. -/
def Parse (supported : Bool) (st : Stages) (b : List Nat) : Except ParseFail ParsedJson :=
  if supported = false then .error .unsupportedHost
  else parseMessage st b

/-- `ParseND` from src/unnamed/part_001: the capability gate, then
`parseMessage` on the whitespace-trimmed input. -/
def ParseND (supported : Bool) (st : Stages) (b : List Nat) : Except ParseFail ParsedJson :=
  if supported = false then .error .unsupportedHost
  else parseMessage st (trimSpace b)

/-! ### NDJSON streaming pipeline (src/unnamed/part_001) -/

/-- One item on the output queue of `ParseNDStream` (`Stream`): either a
parsed value or a failure with its error string. -/
inductive StreamItem where
  | value (v : ParsedJson) : StreamItem
  | failure (e : String) : StreamItem
deriving DecidableEq

def StreamItem.isErr : StreamItem → Bool
  | .failure _ => true
  | .value _ => false

/-- The ordered-forwarding goroutine of `ParseNDStream`: for each completed
chunk result (received in submission order), it first attempts a non-blocking
send (`oracle idx` is true when the consumer is immediately ready so that the
send succeeds), and otherwise sends blockingly unless a failure item has
already been forwarded (`ended`), in which case the item is skipped. -/
def forwardItems (oracle : Nat → Bool) : List StreamItem → Nat → Bool → List StreamItem
  | [], _, _ => []
  | i :: rest, idx, ended =>
    let sent := oracle idx || !ended
    (if sent then [i] else []) ++ forwardItems oracle rest (idx + 1) (ended || i.isErr)

/-- Position of the first failure item (length of the list when none). -/
def firstErrIdx : List StreamItem → Nat
  | [] => 0
  | i :: t => if i.isErr then 0 else firstErrIdx t + 1

/-- Keep the items whose (absolute) index satisfies the oracle. -/
def filterIdx (oracle : Nat → Bool) : Nat → List StreamItem → List StreamItem
  | _, [] => []
  | idx, i :: t => (if oracle idx then [i] else []) ++ filterIdx oracle (idx + 1) t

/-- `ParseNDStream`: with an unsupported host it delivers the single
unsupported-host failure and closes the queue; otherwise the chunk results
(which the reader/parser tasks complete in submission order) are forwarded by
the sequencer goroutine, and the output queue is closed exactly once when the
work queue is exhausted (the deferred close).  The returned pair is the list
of delivered items and the number of close operations. -/
def ParseNDStream (supported : Bool) (results : List StreamItem) (oracle : Nat → Bool) :
    List StreamItem × Nat :=
  if supported = false then ([.failure (errorMessage .unsupportedHost)], 1)
  else (forwardItems oracle results 0 false, 1)

/-! ### Concrete fixtures used in witnesses and counterexamples -/

/-- Stages in which both stages succeed on every message. -/
def stTrue : Stages := Stages.mk (fun _ => true) (fun _ => true) (fun _ => []) (fun _ => [])

/-- Stages in which stage 1 (and stage 2) fail on every message. -/
def stFalse : Stages := Stages.mk (fun _ => false) (fun _ => false) (fun _ => []) (fun _ => [])

/-- Stages in which stage 1 succeeds and stage 2 fails on every message. -/
def stMix : Stages := Stages.mk (fun _ => true) (fun _ => false) (fun _ => []) (fun _ => [])

/-- A scratch state with tape capacity 100, a strings buffer of capacity 500
and an empty scope-offset buffer. -/
def pjFix : InternalParsedJson :=
  InternalParsedJson.mk (Buf.mk 100 7) (some (Buf.mk 500 3)) (Buf.mk 0 0)

/-- A tiny parsed value used as a stream item payload. -/
def pjOne : ParsedJson := ParsedJson.mk [49] [] []

/-- A failed chunk result, as wrapped by the streaming pipeline. -/
def chunkFailure : StreamItem := .failure "parsing input: invalid"

/-- The token `-0` followed by twenty `1` digits: an integer-notation token of
length 22 whose sign is `-` and whose digits begin with a leading zero. -/
def negLongZeroTok : List Nat :=
  [45, 48, 49, 49, 49, 49, 49, 49, 49, 49, 49, 49, 49, 49, 49, 49, 49, 49, 49, 49, 49, 49]

/-- Scanner-compatibility of a byte run: every byte is classified and
non-terminal, and a byte flagged must-have-digit-next is followed inside the
run by a digit. -/
def goodScanB : List Nat → Bool
  | [] => true
  | c :: rest =>
    decide (isNumberRune c ≠ 0) && decide (isNumberRune c ≠ isEOVFlag) &&
    (decide (isNumberRune c &&& isMustHaveDigitNext = 0) || nextIsDigit rest) &&
    goodScanB rest

/-- Flag mask accumulated by the scanner over a byte run, starting from `a`. -/
def foundAcc (a : Nat) (l : List Nat) : Nat :=
  l.foldl (fun x c => x ||| isNumberRune c) a

/-- The number `1e999`: syntactically valid JSON whose value overflows
binary64. -/
def numOneE999 : JsonNum :=
  JsonNum.mk false [49] none (some (JsonExp.mk 101 none [57, 57, 57]))

/-- The number `0.5`. -/
def numHalf : JsonNum := JsonNum.mk false [48] (some [53]) none

/-! ## Theorems -/

/-! ### Generic helper lemmas -/

theorem land_lor_distrib_right (a b c : Nat) :
    (a ||| b) &&& c = (a &&& c) ||| (b &&& c) := by
  apply Nat.eq_of_testBit_eq
  intro i
  simp only [Nat.testBit_lor, Nat.testBit_land]
  cases a.testBit i <;> cases b.testBit i <;> cases c.testBit i <;> rfl

theorem getD_take_of_lt (l : List Nat) (n i d : Nat) (h : i < n) :
    (l.take n).getD i d = l.getD i d := by
  simp [List.getD, List.getElem?_take, h]

theorem takeWhile_append_all (p : Nat → Bool) (l1 l2 : List Nat) (h : ∀ c ∈ l1, p c) :
    (l1 ++ l2).takeWhile p = l1 ++ l2.takeWhile p := by
  induction l1 with
  | nil => rfl
  | cons a t ih =>
    simp [List.takeWhile_cons, h a (by simp), ih (fun c hc => h c (by simp [hc]))]

theorem dropWhile_append_all (p : Nat → Bool) (l1 l2 : List Nat) (h : ∀ c ∈ l1, p c) :
    (l1 ++ l2).dropWhile p = l2.dropWhile p := by
  induction l1 with
  | nil => rfl
  | cons a t ih =>
    simp [List.dropWhile_cons, h a (by simp), ih (fun c hc => h c (by simp [hc]))]

theorem lor_ne_zero_of_left (a b : Nat) (h : a ≠ 0) : a ||| b ≠ 0 := by
  intro h0
  apply h
  apply Nat.eq_of_testBit_eq
  intro i
  have := congrArg (fun n => Nat.testBit n i) h0
  simp only [Nat.testBit_lor, Nat.zero_testBit] at this ⊢
  cases hb : Nat.testBit a i <;> simp_all

theorem lor_ne_zero_of_right (a b : Nat) (h : b ≠ 0) : a ||| b ≠ 0 := by
  intro h0
  apply h
  apply Nat.eq_of_testBit_eq
  intro i
  have := congrArg (fun n => Nat.testBit n i) h0
  simp only [Nat.testBit_lor, Nat.zero_testBit] at this ⊢
  cases hb : Nat.testBit b i <;> simp_all

theorem dropWhile_cons_pred (p : Nat → Bool) (l t : List Nat) (c : Nat)
    (h : l.dropWhile p = c :: t) : p c = false := by
  induction l with
  | nil => simp at h
  | cons a s ih =>
    rw [List.dropWhile_cons] at h
    by_cases hp : p a = true
    · exact ih (by simpa [hp] using h)
    · have hfa : p a = false := by simpa using hp
      simp [hfa] at h
      rw [← h.1]
      exact hfa

/-! ### Number-scanner soundness lemmas -/

/-- If `isDigitB` holds, the byte classifies as a digit. -/
theorem isNumberRune_digit (c : Nat) (h : isDigitB c = true) :
    isNumberRune c = isPartOfNumberFlag ||| isDigitFlag := by
  simp only [isDigitB, Bool.and_eq_true, decide_eq_true_eq] at h
  unfold isNumberRune
  rw [if_pos ⟨h.1, h.2⟩]

/-- Exhaustive enumeration of the classification table. -/
theorem isNumberRune_cases (c : Nat) :
    (isDigitB c = true ∧ isNumberRune c = 17) ∨ (c = 46 ∧ isNumberRune c = 35) ∨
    (c = 43 ∧ isNumberRune c = 1) ∨ (c = 45 ∧ isNumberRune c = 37) ∨
    ((c = 101 ∨ c = 69) ∧ isNumberRune c = 3) ∨ isNumberRune c = 8 ∨ isNumberRune c = 0 := by
  by_cases h1 : 48 ≤ c ∧ c ≤ 57
  · exact Or.inl ⟨by simp [isDigitB, h1.1, h1.2],
      by unfold isNumberRune; rw [if_pos h1]; decide⟩
  by_cases h2 : c = 46
  · exact Or.inr (Or.inl ⟨h2,
      by unfold isNumberRune; rw [if_neg h1, if_pos h2]; decide⟩)
  by_cases h3 : c = 43
  · exact Or.inr (Or.inr (Or.inl ⟨h3,
      by unfold isNumberRune; rw [if_neg h1, if_neg h2, if_pos h3]; decide⟩))
  by_cases h4 : c = 45
  · exact Or.inr (Or.inr (Or.inr (Or.inl ⟨h4,
      by unfold isNumberRune; rw [if_neg h1, if_neg h2, if_neg h3, if_pos h4]; decide⟩)))
  by_cases h5 : c = 101 ∨ c = 69
  · exact Or.inr (Or.inr (Or.inr (Or.inr (Or.inl ⟨h5,
      by unfold isNumberRune; rw [if_neg h1, if_neg h2, if_neg h3, if_neg h4, if_pos h5]; decide⟩))))
  by_cases h6 : c = 44 ∨ c = 125 ∨ c = 93 ∨ c = 32 ∨ c = 9 ∨ c = 13 ∨ c = 10 ∨ c = 58
  · refine Or.inr (Or.inr (Or.inr (Or.inr (Or.inr (Or.inl ?_)))))
    unfold isNumberRune
    rw [if_neg h1, if_neg h2, if_neg h3, if_neg h4, if_neg h5, if_pos h6]
    decide
  · refine Or.inr (Or.inr (Or.inr (Or.inr (Or.inr (Or.inr ?_)))))
    unfold isNumberRune
    rw [if_neg h1, if_neg h2, if_neg h3, if_neg h4, if_neg h5, if_neg h6]

/-- The minus flag is set only for the byte `-`. -/
theorem isNumberRune_minus_only (c : Nat) (h : isNumberRune c &&& isMinusFlag ≠ 0) :
    c = 45 := by
  rcases isNumberRune_cases c with ⟨_, hv⟩ | ⟨_, hv⟩ | ⟨_, hv⟩ | ⟨hc, _⟩ | ⟨_, hv⟩ | hv | hv
  · rw [hv] at h; exact absurd h (by decide)
  · rw [hv] at h; exact absurd h (by decide)
  · rw [hv] at h; exact absurd h (by decide)
  · exact hc
  · rw [hv] at h; exact absurd h (by decide)
  · rw [hv] at h; exact absurd h (by decide)
  · rw [hv] at h; exact absurd h (by decide)

/-- A byte consumed by the scanner with the float-only flag clear is a digit,
`+`, or `-`. -/
theorem isNumberRune_class (c : Nat) (h0 : isNumberRune c ≠ 0)
    (h8 : isNumberRune c ≠ isEOVFlag) (hf : isNumberRune c &&& isFloatOnlyFlag = 0) :
    isDigitB c = true ∨ c = 43 ∨ c = 45 := by
  rcases isNumberRune_cases c with ⟨hd, _⟩ | ⟨_, hv⟩ | ⟨hc, _⟩ | ⟨hc, _⟩ | ⟨_, hv⟩ | hv | hv
  · exact Or.inl hd
  · rw [hv] at hf; exact absurd hf (by decide)
  · exact Or.inr (Or.inl hc)
  · exact Or.inr (Or.inr hc)
  · rw [hv] at hf; exact absurd hf (by decide)
  · exact absurd (by rw [hv]; rfl) h8
  · exact absurd hv h0

/-- Soundness of the scanner loop: the accumulator only grows, the consumed
count is bounded by the buffer, and every consumed byte is classified,
non-terminal, and contributes its flags to the result mask. -/
theorem scanNum_sound :
    ∀ (buf : List Nat) (f p found pos : Nat),
      scanNum buf f p = some (found, pos) →
      p ≤ pos ∧ pos - p ≤ buf.length ∧
      (∀ x, f &&& x ≠ 0 → found &&& x ≠ 0) ∧
      (∀ k, p + k < pos →
        isNumberRune (buf.getD k 0) ≠ 0 ∧
        isNumberRune (buf.getD k 0) ≠ isEOVFlag ∧
        (∀ x, isNumberRune (buf.getD k 0) &&& x ≠ 0 → found &&& x ≠ 0)) := by
  intro buf
  induction buf with
  | nil =>
    intro f p found pos h
    simp only [scanNum, Option.some.injEq, Prod.mk.injEq] at h
    obtain ⟨hf, hp⟩ := h
    subst hf hp
    exact ⟨Nat.le_refl _, by simp, fun x hx => hx, fun k hk => absurd hk (by omega)⟩
  | cons v rest ih =>
    intro f p found pos h
    rw [scanNum] at h
    by_cases h0 : isNumberRune v = 0
    · simp [h0] at h
    · rw [if_neg h0] at h
      by_cases h8 : isNumberRune v = isEOVFlag
      · rw [if_pos h8] at h
        simp only [Option.some.injEq, Prod.mk.injEq] at h
        obtain ⟨hf, hp⟩ := h
        subst hf hp
        exact ⟨Nat.le_refl _, by simp, fun x hx => hx, fun k hk => absurd hk (by omega)⟩
      · rw [if_neg h8] at h
        by_cases hm : isNumberRune v &&& isMustHaveDigitNext ≠ 0 ∧ nextIsDigit rest = false
        · simp [hm] at h
        · rw [if_neg hm] at h
          obtain ⟨h1, h2, h3, h4⟩ := ih (f ||| isNumberRune v) (p + 1) found pos h
          refine ⟨by omega, by simp; omega, ?_, ?_⟩
          · intro x hx
            apply h3
            rw [land_lor_distrib_right]
            exact lor_ne_zero_of_left _ _ hx
          · intro k hk
            match k with
            | 0 =>
              refine ⟨h0, h8, ?_⟩
              intro x hx
              apply h3
              rw [land_lor_distrib_right]
              exact lor_ne_zero_of_right _ _ hx
            | k' + 1 =>
              have := h4 k' (by omega)
              simpa using this

/-- Completeness of the flag accumulation: a bit set in the result mask comes
from the initial mask or from some consumed byte. -/
theorem scanNum_found_src :
    ∀ (buf : List Nat) (f p found pos : Nat),
      scanNum buf f p = some (found, pos) →
      ∀ x, found &&& x ≠ 0 →
        f &&& x ≠ 0 ∨ ∃ k, p + k < pos ∧ isNumberRune (buf.getD k 0) &&& x ≠ 0 := by
  intro buf
  induction buf with
  | nil =>
    intro f p found pos h x hx
    simp only [scanNum, Option.some.injEq, Prod.mk.injEq] at h
    obtain ⟨hf, hp⟩ := h
    subst hf
    exact Or.inl hx
  | cons v rest ih =>
    intro f p found pos h x hx
    rw [scanNum] at h
    by_cases h0 : isNumberRune v = 0
    · simp [h0] at h
    · rw [if_neg h0] at h
      by_cases h8 : isNumberRune v = isEOVFlag
      · rw [if_pos h8] at h
        simp only [Option.some.injEq, Prod.mk.injEq] at h
        obtain ⟨hf, hp⟩ := h
        subst hf
        exact Or.inl hx
      · rw [if_neg h8] at h
        by_cases hm : isNumberRune v &&& isMustHaveDigitNext ≠ 0 ∧ nextIsDigit rest = false
        · simp [hm] at h
        · rw [if_neg hm] at h
          have hle := (scanNum_sound rest (f ||| isNumberRune v) (p + 1) found pos h).1
          rcases ih (f ||| isNumberRune v) (p + 1) found pos h x hx with hor | ⟨k, hk1, hk2⟩
          · rw [land_lor_distrib_right] at hor
            by_cases hfx : f &&& x ≠ 0
            · exact Or.inl hfx
            · right
              refine ⟨0, by omega, ?_⟩
              simp only [List.getD_cons_zero]
              intro hvx
              apply hor
              push_neg at hfx
              rw [hfx, hvx]
              rfl
          · exact Or.inr ⟨k + 1, by omega, by simpa using hk2⟩

/-- The scanner fails when a byte flagged must-have-digit-next occurs before
the first end-of-value byte and is not immediately followed by a digit. -/
theorem scanNum_none_of_mustHave :
    ∀ (buf : List Nat) (i f p : Nat),
      i < buf.length →
      isNumberRune (buf.getD i 0) &&& isMustHaveDigitNext ≠ 0 →
      (∀ j, j < i → isNumberRune (buf.getD j 0) ≠ isEOVFlag) →
      (buf.length = i + 1 ∨ isNumberRune (buf.getD (i + 1) 0) &&& isDigitFlag = 0) →
      scanNum buf f p = none := by
  intro buf
  induction buf with
  | nil => intro i f p h; simp at h
  | cons v rest ih =>
    intro i f p hi hmust hpre hnext
    match i with
    | 0 =>
      simp only [List.getD_cons_zero] at hmust
      have ht0 : ¬ isNumberRune v = 0 := fun hz => hmust (by rw [hz]; rfl)
      have ht8 : ¬ isNumberRune v = isEOVFlag := fun hz => hmust (by rw [hz]; decide)
      have hnd : nextIsDigit rest = false := by
        rcases hnext with hlen | hdig
        · have hr : rest = [] := by
            have : rest.length = 0 := by simpa using hlen
            exact List.eq_nil_of_length_eq_zero this
          simp [hr, nextIsDigit]
        · cases rest with
          | nil => rfl
          | cons w tl =>
            have hw : (v :: w :: tl).getD 1 0 = w := rfl
            rw [hw] at hdig
            simp [nextIsDigit, hdig]
      rw [scanNum, if_neg ht0, if_neg ht8, if_pos ⟨hmust, hnd⟩]
    | i' + 1 =>
      by_cases h0 : isNumberRune v = 0
      · rw [scanNum, if_pos h0]
      · have h8 : isNumberRune v ≠ isEOVFlag := by
          have := hpre 0 (Nat.succ_pos i')
          simpa using this
        by_cases hm : isNumberRune v &&& isMustHaveDigitNext ≠ 0 ∧ nextIsDigit rest = false
        · rw [scanNum, if_neg h0, if_neg h8, if_pos hm]
        · rw [scanNum, if_neg h0, if_neg h8, if_neg hm]
          apply ih i'
          · simpa using Nat.lt_of_succ_lt_succ hi
          · simpa using hmust
          · intro j hj
            have := hpre (j + 1) (by omega)
            simpa using this
          · rcases hnext with hlen | hdig
            · exact Or.inl (by simpa using hlen)
            · exact Or.inr (by simpa using hdig)

theorem getD_mem (l : List Nat) (k d : Nat) (h : k < l.length) : l.getD k d ∈ l := by
  rw [List.getD_eq_getElem l d h]
  exact List.getElem_mem h

theorem takeWhile_dropWhile_length (l : List Nat) (p : Nat → Bool) :
    (l.takeWhile p).length + (l.dropWhile p).length = l.length := by
  rw [← List.length_append, List.takeWhile_append_dropWhile]

/-! ### Digit-accumulation lemmas for the strconv loop -/

theorem foldl_digits_ge (ds : List Nat) :
    ∀ a : Nat, a ≤ ds.foldl (fun x c => x * 10 + (c - 48)) a := by
  induction ds with
  | nil => intro a; exact Nat.le_refl a
  | cons c t ih =>
    intro a
    simp only [List.foldl_cons]
    have h1 : a ≤ a * 10 + (c - 48) := by omega
    have h2 := ih (a * 10 + (c - 48))
    omega

theorem foldl_digits_lt (ds : List Nat) (h : ∀ c ∈ ds, isDigitB c = true) :
    ∀ a : Nat, ds.foldl (fun x c => x * 10 + (c - 48)) a < (a + 1) * 10 ^ ds.length := by
  induction ds with
  | nil => intro a; simpa using Nat.lt_succ_self a
  | cons c t ih =>
    intro a
    simp only [List.foldl_cons, List.length_cons]
    have hc : c ≤ 57 := by
      have := h c (by simp)
      simp only [isDigitB, Bool.and_eq_true, decide_eq_true_eq] at this
      exact this.2
    have hrec := ih (fun d hd => h d (by simp [hd])) (a * 10 + (c - 48))
    have hstep : (a * 10 + (c - 48) + 1) * 10 ^ t.length ≤ (a + 1) * 10 ^ (t.length + 1) := by
      have hb : a * 10 + (c - 48) + 1 ≤ (a + 1) * 10 := by omega
      calc (a * 10 + (c - 48) + 1) * 10 ^ t.length ≤ (a + 1) * 10 * 10 ^ t.length :=
            Nat.mul_le_mul_right _ hb
        _ = (a + 1) * 10 ^ (t.length + 1) := by ring
    omega

theorem parseUint64Loop_ok (ds : List Nat) (h : ∀ c ∈ ds, isDigitB c = true) :
    ∀ n maxVal : Nat, ds.foldl (fun x c => x * 10 + (c - 48)) n ≤ maxVal →
      parseUint64Loop ds n maxVal = .ok (ds.foldl (fun x c => x * 10 + (c - 48)) n) := by
  induction ds with
  | nil => intro n maxVal _; rfl
  | cons c t ih =>
    intro n maxVal hle
    have hc := h c (by simp)
    simp only [isDigitB, Bool.and_eq_true, decide_eq_true_eq] at hc
    simp only [List.foldl_cons] at hle ⊢
    have hge := foldl_digits_ge t (n * 10 + (c - 48))
    rw [parseUint64Loop, if_pos ⟨hc.1, hc.2⟩, if_neg (by omega)]
    exact ih (fun d hd => h d (by simp [hd])) (n * 10 + (c - 48)) maxVal hle

theorem parseUint64Loop_range (ds : List Nat) (h : ∀ c ∈ ds, isDigitB c = true) :
    ∀ n maxVal : Nat, n ≤ maxVal → maxVal < ds.foldl (fun x c => x * 10 + (c - 48)) n →
      parseUint64Loop ds n maxVal = .error .rangeErr := by
  induction ds with
  | nil =>
    intro n maxVal h1 h2
    simp only [List.foldl_nil] at h2
    omega
  | cons c t ih =>
    intro n maxVal hn hmax
    have hc := h c (by simp)
    simp only [isDigitB, Bool.and_eq_true, decide_eq_true_eq] at hc
    simp only [List.foldl_cons] at hmax
    by_cases hov : maxVal < n * 10 + (c - 48)
    · rw [parseUint64Loop, if_pos ⟨hc.1, hc.2⟩, if_pos hov]
    · rw [parseUint64Loop, if_pos ⟨hc.1, hc.2⟩, if_neg hov]
      exact ih (fun d hd => h d (by simp [hd])) (n * 10 + (c - 48)) maxVal (by omega) hmax

theorem parseUint64Loop_syn (ds : List Nat) (h : ∀ c ∈ ds, isDigitB c = true) :
    ∀ (c : Nat) (rest : List Nat) (n maxVal : Nat), isDigitB c = false →
      ds.foldl (fun x d => x * 10 + (d - 48)) n ≤ maxVal →
      parseUint64Loop (ds ++ c :: rest) n maxVal = .error .synErr := by
  induction ds with
  | nil =>
    intro c rest n maxVal hc _
    simp only [List.nil_append]
    rw [parseUint64Loop, if_neg]
    intro hcon
    simp [isDigitB, hcon.1, hcon.2] at hc
  | cons d t ih =>
    intro c rest n maxVal hc hle
    have hd := h d (by simp)
    simp only [isDigitB, Bool.and_eq_true, decide_eq_true_eq] at hd
    simp only [List.foldl_cons] at hle
    have hge := foldl_digits_ge t (n * 10 + (d - 48))
    simp only [List.cons_append]
    rw [parseUint64Loop, if_pos ⟨hd.1, hd.2⟩, if_neg (by omega)]
    exact ih (fun x hx => h x (by simp [hx])) c rest (n * 10 + (d - 48)) maxVal hc hle

/-! ### Streaming sequencer lemmas (claim C3) -/

theorem forwardItems_ended_eq (oracle : Nat → Bool) (l : List StreamItem) :
    ∀ idx : Nat, forwardItems oracle l idx true = filterIdx oracle idx l := by
  induction l with
  | nil => intro idx; rfl
  | cons i t ih => intro idx; simp [forwardItems, filterIdx, ih]

theorem forwardItems_eq (oracle : Nat → Bool) (l : List StreamItem) :
    ∀ idx : Nat,
      forwardItems oracle l idx false =
        l.take (firstErrIdx l + 1) ++
          filterIdx oracle (idx + (firstErrIdx l + 1)) (l.drop (firstErrIdx l + 1)) := by
  induction l with
  | nil => intro idx; rfl
  | cons i t ih =>
    intro idx
    by_cases h : i.isErr
    · simp [forwardItems, firstErrIdx, h, forwardItems_ended_eq]
    · have harith : idx + (firstErrIdx t + 1 + 1) = idx + 1 + (firstErrIdx t + 1) := by omega
      simp [forwardItems, firstErrIdx, h, ih, harith]

/-- Claim C3 counterexample: with the consumer immediately ready for every
send, the sequencer forwards a value item after the terminal failure item, so
the delivered sequence is not just the items up to the failure. -/
theorem claim3_counterexample :
    ParseNDStream true [chunkFailure, .value pjOne] (fun _ => true) =
      ([chunkFailure, .value pjOne], 1) ∧
    ([chunkFailure, StreamItem.value pjOne] : List StreamItem) ≠ [chunkFailure] := by
  exact ⟨rfl, by decide⟩

/-- Claim C3 (amended): the sequencer delivers the items preceding the first
failure in submission order and then the failure itself (all with guaranteed
delivery); every later item is forwarded exactly when the consumer is
immediately ready for the non-blocking send (`oracle`) and is dropped
otherwise; the output queue is closed exactly once.  (When the result
sequence ends at the first failure, this reduces to the original claim.) -/
theorem claim3_sequencer_delivery :
    ∀ (results : List StreamItem) (oracle : Nat → Bool),
      ParseNDStream true results oracle =
        (results.take (firstErrIdx results + 1) ++
          filterIdx oracle (firstErrIdx results + 1)
            (results.drop (firstErrIdx results + 1)), 1) := by
  intro results oracle
  have h := forwardItems_eq oracle results 0
  simp only [Nat.zero_add] at h
  simp [ParseNDStream, h]

/-- Claim C2 counterexample: with an unsupported host, `Parse` fails before
reading the input, but the error is worded "Host CPU does not meet target
specs", not "host CPU does not meet target specs" as the claim states. -/
theorem claim2_counterexample :
    Parse false stTrue [] = .error .unsupportedHost ∧
    errorMessage .unsupportedHost ≠ "host CPU does not meet target specs" := by
  exact ⟨rfl, by decide⟩

/-- Claim C2 (amended): with an unsupported host every entry point fails with
the unsupported-host error worded "Host CPU does not meet target specs"
(capital H) without reading any input — the result is independent of the
input bytes — and `ParseNDStream` delivers this failure as the sole item on
the output queue, which is closed (exactly once). -/
theorem claim2_capability_gate :
    ∀ (st : Stages) (b b2 : List Nat) (results : List StreamItem) (oracle : Nat → Bool),
      Parse false st b = .error .unsupportedHost ∧
      ParseND false st b = .error .unsupportedHost ∧
      Parse false st b = Parse false st b2 ∧
      ParseND false st b = ParseND false st b2 ∧
      ParseNDStream false results oracle = ([.failure (errorMessage .unsupportedHost)], 1) ∧
      errorMessage .unsupportedHost = "Host CPU does not meet target specs" := by
  intro st b b2 results oracle
  exact ⟨rfl, rfl, rfl, rfl, rfl, rfl⟩

/-- Claim C6: if stage 1 fails, `parseMessage` returns the stage-1 error (in
particular when both stages fail); if stage 1 succeeds and stage 2 fails it
returns the stage-2 error; with both stages succeeding it returns the parsed
result. -/
theorem claim6_stage_error_precedence :
    ∀ (st : Stages) (msg : List Nat),
      (st.stage1ok (trimSpace msg) = false → parseMessage st msg = .error .stage1Err) ∧
      (st.stage1ok (trimSpace msg) = true → st.stage2ok (trimSpace msg) = false →
        parseMessage st msg = .error .stage2Err) ∧
      (st.stage1ok (trimSpace msg) = true → st.stage2ok (trimSpace msg) = true →
        parseMessage st msg =
          .ok (ParsedJson.mk (trimSpace msg) (st.tapeOf (trimSpace msg))
            (st.stringsOf (trimSpace msg)))) := by
  intro st msg
  refine ⟨fun h1 => ?_, fun h1 h2 => ?_, fun h1 h2 => ?_⟩
  · simp [parseMessage, h1]
  · simp [parseMessage, h1, h2]
  · simp [parseMessage, h1, h2]

theorem claim6_witness :
    parseMessage stFalse [] = .error .stage1Err ∧
    parseMessage stMix [] = .error .stage2Err := by
  exact ⟨(claim6_stage_error_precedence stFalse []).1 rfl,
    (claim6_stage_error_precedence stMix []).2.1 rfl rfl⟩

/-- Claim C7: initialization sets the tape capacity hint to 15% of the input
length and the strings arena hint to 10% with a 128-byte minimum; a buffer
whose capacity meets the hint is truncated to length zero keeping its
capacity, and a new buffer (at the hint capacity) is made only when the
existing one is undersized or absent. -/
theorem claim7_buffer_hints :
    ∀ (pj : InternalParsedJson) (size : Nat),
      ((initScratch pj size).tape.len = 0) ∧
      (pj.tape.cap < size * 15 / 100 → (initScratch pj size).tape.cap = size * 15 / 100) ∧
      (size * 15 / 100 ≤ pj.tape.cap → (initScratch pj size).tape.cap = pj.tape.cap) ∧
      (∀ b, pj.strings = some b → max (size / 10) 128 ≤ b.cap →
        (initScratch pj size).strings = some (Buf.mk b.cap 0)) ∧
      (∀ b, pj.strings = some b → b.cap < max (size / 10) 128 →
        (initScratch pj size).strings = some (Buf.mk (max (size / 10) 128) 0)) ∧
      (pj.strings = none →
        (initScratch pj size).strings = some (Buf.mk (max (size / 10) 128) 0)) := by
  intro pj size
  have hm : (if size / 10 < 128 then 128 else size / 10) = max (size / 10) 128 := by
    split <;> omega
  refine ⟨?_, fun h => ?_, fun h => ?_, fun b hb hc => ?_, fun b hb hc => ?_, fun h => ?_⟩
  · simp only [initScratch]
    split <;> rfl
  · simp only [initScratch]
    rw [if_pos h]
  · simp only [initScratch]
    rw [if_neg (by omega)]
  · simp only [initScratch, hb, hm]
    rw [if_pos hc]
  · simp only [initScratch, hb, hm]
    rw [if_neg (by omega)]
  · simp only [initScratch, h, hm]

theorem claim7_witness :
    (initScratch pjFix 1000).tape.cap = 150 ∧
    (initScratch pjFix 1000).strings = some (Buf.mk 500 0) := by
  exact ⟨(claim7_buffer_hints pjFix 1000).2.1 (by decide),
    (claim7_buffer_hints pjFix 1000).2.2.2.1 (Buf.mk 500 3) rfl (by decide)⟩

/-- Claim C10: `parseNumber` accepts `+5` (terminated or bare) as tag
`Integer` with value 5 — `+` is classified as part of a number without the
must-have-digit-next requirement, and the underlying signed-integer decoder
accepts an explicit plus sign — although the JSON grammar forbids a leading
plus. -/
theorem claim10_plus_sign_accepted :
    parseNumber [43, 53, 44] = (TagInteger <<< JSONTAGOFFSET, 5) ∧
    parseNumber [43, 53] = (TagInteger <<< JSONTAGOFFSET, 5) ∧
    isNumberRune 43 = isPartOfNumberFlag ∧
    isNumberRune 43 &&& isMustHaveDigitNext = 0 ∧
    goParseInt [43, 53] = .ok 5 := by
  exact ⟨by decide, by decide, by decide, by decide, rfl⟩

/-- Claim C5: the 64-bit boundary literals decode to the specified tags —
int64 max to `Integer`, int64 max + 1 and uint64 max to `Uint`, uint64 max +
1 to `Float` with the overflowed-integer flag, int64 min to `Integer`, and
int64 min - 1 to `Float` with the overflowed-integer flag. -/
theorem claim5_boundary_literals :
    parseNumber [57, 50, 50, 51, 51, 55, 50, 48, 51, 54, 56, 53, 52, 55, 55, 53, 56, 48, 55] =
      (TagInteger <<< JSONTAGOFFSET, 9223372036854775807) ∧
    parseNumber [57, 50, 50, 51, 51, 55, 50, 48, 51, 54, 56, 53, 52, 55, 55, 53, 56, 48, 56] =
      (TagUint <<< JSONTAGOFFSET, 9223372036854775808) ∧
    parseNumber [49, 56, 52, 52, 54, 55, 52, 52, 48, 55, 51, 55, 48, 57, 53, 53, 49, 54, 49, 53] =
      (TagUint <<< JSONTAGOFFSET, 18446744073709551615) ∧
    parseNumber [49, 56, 52, 52, 54, 55, 52, 52, 48, 55, 51, 55, 48, 57, 53, 53, 49, 54, 49, 54] =
      ((TagFloat <<< JSONTAGOFFSET) ||| FloatOverflowedInteger, 4895412794951729152) ∧
    parseNumber [45, 57, 50, 50, 51, 51, 55, 50, 48, 51, 54, 56, 53, 52, 55, 55, 53, 56, 48, 56] =
      (TagInteger <<< JSONTAGOFFSET, 9223372036854775808) ∧
    parseNumber [45, 57, 50, 50, 51, 51, 55, 50, 48, 51, 54, 56, 53, 52, 55, 55, 53, 56, 48, 57] =
      ((TagFloat <<< JSONTAGOFFSET) ||| FloatOverflowedInteger, 14114281232179134464) := by
  exact ⟨by decide, by decide, by decide, by decide, by decide, by decide⟩

/-- Claim C8: `parseNumber` returns the not-a-number signal whenever a byte
flagged must-have-digit-next occurs before the first end-of-value byte without
a digit immediately after it, and whenever zero characters are consumed before
the first end-of-value byte (or the buffer is empty); in particular bare `-`,
bare `.`, `1.` and `1e-` all fail. -/
theorem claim8_must_have_digit_next :
    (∀ (buf : List Nat) (i : Nat), i < buf.length →
        isNumberRune (buf.getD i 0) &&& isMustHaveDigitNext ≠ 0 →
        (∀ j, j < i → isNumberRune (buf.getD j 0) ≠ isEOVFlag) →
        (buf.length = i + 1 ∨ isNumberRune (buf.getD (i + 1) 0) &&& isDigitFlag = 0) →
        parseNumber buf = (0, 0)) ∧
    (∀ buf : List Nat, buf = [] ∨ isNumberRune (buf.getD 0 0) = isEOVFlag →
        parseNumber buf = (0, 0)) ∧
    parseNumber [45] = (0, 0) ∧ parseNumber [46] = (0, 0) ∧
    parseNumber [49, 46] = (0, 0) ∧ parseNumber [49, 101, 45] = (0, 0) := by
  refine ⟨?_, ?_, by decide, by decide, by decide, by decide⟩
  · intro buf i hi hm hpre hnext
    have hs := scanNum_none_of_mustHave buf i 0 0 hi hm hpre hnext
    simp [parseNumber, hs]
  · intro buf hb
    rcases hb with hb | hb
    · subst hb; decide
    · cases buf with
      | nil => decide
      | cons v rest =>
        simp only [List.getD_cons_zero] at hb
        have h0 : ¬ isNumberRune v = 0 := by rw [hb]; decide
        simp [parseNumber, scanNum, h0, hb, isEOVFlag]

theorem claim8_witness : parseNumber [49, 46, 44] = (0, 0) :=
  claim8_must_have_digit_next.1 [49, 46, 44] 1 (by decide) (by decide)
    (fun j hj => by
      have hj0 : j = 0 := by omega
      subst hj0
      decide)
    (Or.inr (by decide))

/-- Claim C4 counterexample: the integer-notation token `-0` followed by
twenty `1` digits has no float-only character and a `-0` prefix followed by a
digit, yet `parseNumber` accepts it (its length 22 exceeds the 20-character
integer branch, and the float leading-zero guard only inspects an unsigned
leading zero). -/
theorem claim4_counterexample :
    scanNum negLongZeroTok 0 0 = some (53, 22) ∧
    53 &&& isFloatOnlyFlag = 0 ∧
    negLongZeroTok.getD 0 0 = 45 ∧ negLongZeroTok.getD 1 0 = 48 ∧
    isDigitB (negLongZeroTok.getD 2 0) = true ∧
    parseNumber negLongZeroTok ≠ (0, 0) := by
  exact ⟨by decide, by decide, by decide, by decide, by decide, by decide⟩

/-- Claim C4 (amended): for scanned tokens without a float-only character *of
length at most 20*, a leading `0` followed by another digit is rejected for
both signs, while bare `0` and `-0` are accepted; for every scanned token
containing a float-only character, a leading zero is accepted only when
immediately followed by a decimal point or exponent marker, else the token is
rejected ("0.5" and "0e1" are accepted).  (Longer integer-notation tokens
fall through to the float path, where only an unsigned leading zero is
rejected — see the counterexample.) -/
theorem claim4_leading_zero :
    (∀ (buf : List Nat) (found pos : Nat),
        scanNum buf 0 0 = some (found, pos) → found &&& isFloatOnlyFlag = 0 → pos ≤ 20 →
        2 ≤ pos → buf.getD 0 0 = 48 → isDigitB (buf.getD 1 0) = true →
        parseNumber buf = (0, 0)) ∧
    (∀ (buf : List Nat) (found pos : Nat),
        scanNum buf 0 0 = some (found, pos) → found &&& isFloatOnlyFlag = 0 → pos ≤ 20 →
        3 ≤ pos → buf.getD 0 0 = 45 → buf.getD 1 0 = 48 →
        parseNumber buf = (0, 0)) ∧
    (parseNumber [48] = (TagInteger <<< JSONTAGOFFSET, 0) ∧
     parseNumber [45, 48] = (TagInteger <<< JSONTAGOFFSET, 0)) ∧
    (∀ (buf : List Nat) (found pos : Nat),
        scanNum buf 0 0 = some (found, pos) → found &&& isFloatOnlyFlag ≠ 0 →
        2 ≤ pos → buf.getD 0 0 = 48 →
        isNumberRune (buf.getD 1 0) &&& isFloatOnlyFlag = 0 →
        parseNumber buf = (0, 0)) ∧
    (parseNumber [48, 46, 53] = (TagFloat <<< JSONTAGOFFSET, 4602678819172646912) ∧
     parseNumber [48, 101, 49] = (TagFloat <<< JSONTAGOFFSET, 0)) := by
  refine ⟨?_, ?_, ⟨by decide, by decide⟩, ?_, ⟨by decide, by decide⟩⟩
  · -- unsigned (or stray-minus) tokens with a leading zero, length ≤ 20
    intro buf found pos hscan hflt hle h2 h0 h1d
    have hpos0 : ¬ pos = 0 := by omega
    by_cases hmin : found &&& isMinusFlag = 0
    · have htok : (buf.take pos).getD 0 0 = 48 := by
        rw [getD_take_of_lt _ _ _ _ (by omega)]; exact h0
      simp only [parseNumber, hscan]
      rw [if_neg hpos0, if_pos ⟨hflt, hle⟩, if_pos hmin, if_pos ⟨by omega, htok⟩]
    · -- the minus flag comes from a `-` byte strictly after position 1
      rcases scanNum_found_src buf 0 0 found pos hscan isMinusFlag hmin
        with habs | ⟨k, hk, hkm⟩
      · exact absurd (Nat.zero_and _) habs
      · simp only [Nat.zero_add] at hk
        have hk45 : buf.getD k 0 = 45 := isNumberRune_minus_only _ hkm
        have hk0 : k ≠ 0 := by intro he; rw [he, h0] at hk45; omega
        have hk1 : k ≠ 1 := by
          intro he
          rw [he] at hk45
          rw [hk45] at h1d
          exact absurd h1d (by decide)
        have hposgt2 : 2 < pos := by omega
        by_cases hb1 : buf.getD 1 0 = 48
        · -- the negative-branch leading-zero guard fires
          have htok1 : (buf.take pos).getD 1 0 = 48 := by
            rw [getD_take_of_lt _ _ _ _ (by omega)]; exact hb1
          simp only [parseNumber, hscan]
          rw [if_neg hpos0, if_pos ⟨hflt, hle⟩, if_neg hmin, if_pos ⟨hposgt2, htok1⟩]
        · -- ParseInt hits the `-` as a syntax error and the float guard rejects
          have hlen : pos ≤ buf.length := by
            have := (scanNum_sound buf 0 0 found pos hscan).2.1
            omega
          have htoklen : (buf.take pos).length = pos := by
            rw [List.length_take]; omega
          have htk : (buf.take pos).getD k 0 = 45 := by
            rw [getD_take_of_lt _ _ _ _ (by omega)]; exact hk45
          have htok0 : (buf.take pos).getD 0 0 = 48 := by
            rw [getD_take_of_lt _ _ _ _ (by omega)]; exact h0
          have htok1d : isDigitB ((buf.take pos).getD 1 0) = true := by
            rw [getD_take_of_lt _ _ _ _ (by omega)]; exact h1d
          -- decompose the token around its first non-digit
          have hdw : (buf.take pos).dropWhile isDigitB ≠ [] := by
            intro hnil
            have hall : (buf.take pos).takeWhile isDigitB = buf.take pos := by
              have := List.takeWhile_append_dropWhile isDigitB (buf.take pos)
              rw [hnil, List.append_nil] at this
              exact this
            have h45mem : (45 : Nat) ∈ buf.take pos := by
              rw [← htk]
              exact getD_mem _ _ _ (by omega)
            have := List.mem_takeWhile_imp (by rw [hall]; exact h45mem)
            exact absurd this (by decide)
          obtain ⟨c, crest, hdwc⟩ : ∃ c crest,
              (buf.take pos).dropWhile isDigitB = c :: crest := by
            cases hdm : (buf.take pos).dropWhile isDigitB with
            | nil => exact absurd hdm hdw
            | cons c crest => exact ⟨c, crest, rfl⟩
          have hcnd : isDigitB c = false := dropWhile_cons_pred _ _ _ _ hdwc
          have hsplit : (buf.take pos).takeWhile isDigitB ++ c :: crest = buf.take pos := by
            rw [← hdwc]
            exact List.takeWhile_append_dropWhile _ _
          have htwd : ∀ d ∈ (buf.take pos).takeWhile isDigitB, isDigitB d = true :=
            fun d hd => List.mem_takeWhile_imp hd
          have htwlen : ((buf.take pos).takeWhile isDigitB).length ≤ 19 := by
            have hl := takeWhile_dropWhile_length (buf.take pos) isDigitB
            rw [hdwc, htoklen] at hl
            simp only [List.length_cons] at hl
            omega
          have hfold : ((buf.take pos).takeWhile isDigitB).foldl
              (fun x d => x * 10 + (d - 48)) 0 ≤ 2 ^ 64 - 1 := by
            have hv := foldl_digits_lt _ htwd 0
            have hp : (10 : Nat) ^ ((buf.take pos).takeWhile isDigitB).length ≤ 10 ^ 19 :=
              Nat.pow_le_pow_right (by omega) htwlen
            have hbound : (10 : Nat) ^ 19 ≤ 2 ^ 64 - 1 := by norm_num
            omega
          have hloop : parseUint64Loop (buf.take pos) 0 (2 ^ 64 - 1) = .error .synErr := by
            rw [← hsplit]
            exact parseUint64Loop_syn _ htwd c crest 0 (2 ^ 64 - 1) hcnd hfold
          obtain ⟨x, xs, hm1⟩ : ∃ x xs, buf.take pos = x :: xs := by
            cases hq : buf.take pos with
            | nil => rw [hq] at htoklen; simp at htoklen; omega
            | cons a as => exact Exists.intro a (Exists.intro as rfl)
          obtain ⟨y, ys, hm2⟩ : ∃ y ys, xs = y :: ys := by
            cases hq : xs with
            | nil =>
              rw [hq] at hm1
              rw [hm1] at htoklen
              simp at htoklen
              omega
            | cons a as => exact Exists.intro a (Exists.intro as rfl)
          have hx48 : x = 48 := by
            have h0' := htok0
            rw [hm1] at h0'
            simpa using h0'
          have htok : buf.take pos = 48 :: y :: ys := by rw [hm1, hm2, hx48]
          have hyd : isDigitB y = true := by
            have h1' := htok1d
            rw [htok] at h1'
            simpa using h1'
          have hloop2 : parseUint64Loop (48 :: y :: ys) 0 18446744073709551615 =
              Except.error PErr.synErr := by
            have he : (18446744073709551615 : Nat) = 2 ^ 64 - 1 := by norm_num
            rw [he, ← htok]
            exact hloop
          have hPI : goParseInt (buf.take pos) = .error .synErr := by
            rw [htok]
            simp only [goParseInt]
            rw [if_neg (by decide)]
            simp [hloop2]
          have hPU : goParseUint (buf.take pos) = .error .synErr := by
            rw [htok]
            simp only [goParseUint]
            simp [hloop2]
          have hg1 : (1 : Nat) < pos := by omega
          have hg3 : isNumberRune ((buf.take pos).getD 1 0) &&& isFloatOnlyFlag = 0 := by
            rw [htok]
            simp only [List.getD_cons_succ, List.getD_cons_zero]
            rw [isNumberRune_digit y hyd]
            decide
          simp only [parseNumber, hscan]
          rw [if_neg hpos0, if_pos ⟨hflt, hle⟩, if_neg hmin,
            if_neg (fun hcon => hb1 (by
              have hcon2 := hcon.2
              rw [getD_take_of_lt _ _ _ _ (by omega)] at hcon2
              exact hcon2))]
          have hg3' : isNumberRune (buf.getD 1 0) &&& isFloatOnlyFlag = 0 := by
            rw [isNumberRune_digit _ h1d]
            decide
          have hg0 : (0 : Nat) < pos := by omega
          simp [parseNumInt, hPI, hPU, floatFinish, hg0, hg1, htok0, h0, hg3, hg3']
          intro hcon
          have h0q : buf[0]?.getD 0 = 48 := by
            rw [← List.getD_eq_getElem?_getD]
            exact h0
          have hg3q : isNumberRune (buf[1]?.getD 0) &&& isFloatOnlyFlag = 0 := by
            rw [← List.getD_eq_getElem?_getD]
            exact hg3'
          exact absurd hg3q (hcon h0q)
  · -- negative tokens with `-0` followed by more characters, length ≤ 20
    intro buf found pos hscan hflt hle h3 h0 h1
    have hpos0 : ¬ pos = 0 := by omega
    have hmin : found &&& isMinusFlag ≠ 0 := by
      have hsound := (scanNum_sound buf 0 0 found pos hscan).2.2.2
      have h45 := (hsound 0 (by omega)).2.2
      apply h45
      rw [h0]
      decide
    have htok1 : (buf.take pos).getD 1 0 = 48 := by
      rw [getD_take_of_lt _ _ _ _ (by omega)]; exact h1
    simp only [parseNumber, hscan]
    rw [if_neg hpos0, if_pos ⟨hflt, hle⟩, if_neg hmin, if_pos ⟨by omega, htok1⟩]
  · -- float-notation tokens with a leading zero not followed by `.`/`e`/`E`
    intro buf found pos hscan hflt h2 h0 h1f
    have hpos0 : ¬ pos = 0 := by omega
    have htok0 : (buf.take pos).getD 0 0 = 48 := by
      rw [getD_take_of_lt _ _ _ _ (by omega)]; exact h0
    have htok1 : isNumberRune ((buf.take pos).getD 1 0) &&& isFloatOnlyFlag = 0 := by
      rw [getD_take_of_lt _ _ _ _ (by omega)]; exact h1f
    simp only [parseNumber, hscan]
    rw [if_neg hpos0, if_neg (fun hcon => hflt hcon.1), if_neg hflt]
    simp only [floatFinish]
    rw [if_pos ⟨by omega, htok0, htok1⟩]

theorem claim4_witness : parseNumber [48, 49] = (0, 0) :=
  claim4_leading_zero.1 [48, 49] 17 2 (by decide) (by decide) (by decide) (by decide)
    (by decide) (by decide)

/-! ### Whitespace-trimming lemmas (claim C9) -/

theorem asciiSpace_lt (c : Nat) (h : asciiSpace c = true) : c < 128 := by
  simp only [asciiSpace, decide_eq_true_eq] at h
  rcases h with h | h | h | h | h | h <;> omega

theorem isSpaceGo_ascii (c : Nat) (h : asciiSpace c = true) : isSpaceGo c = true := by
  simp only [asciiSpace, decide_eq_true_eq] at h
  rcases h with h | h | h | h | h | h <;> subst h <;> decide

theorem decodeRune_size_pos (s : List Nat) (h : s ≠ []) : 1 ≤ (decodeRune s).2 := by
  cases s with
  | nil => exact absurd rfl h
  | cons c rest =>
    simp only [decodeRune]
    repeat' split
    all_goals simp

theorem decodeRune_size_le (s : List Nat) : (decodeRune s).2 ≤ s.length := by
  cases s with
  | nil => simp [decodeRune]
  | cons c rest =>
    simp only [decodeRune]
    repeat' split
    all_goals simp_all
    all_goals omega

/-- Appending ASCII-space bytes does not change how the first rune decodes:
space bytes are neither continuation bytes nor in any accepted follower
range, so incomplete sequences stay invalid. -/
theorem decodeRune_append_spaces (s t : List Nat) (hs : s ≠ [])
    (ht : ∀ c ∈ t, asciiSpace c = true) : decodeRune (s ++ t) = decodeRune s := by
  cases s with
  | nil => exact absurd rfl hs
  | cons c s1 =>
    by_cases h1 : c < 128
    · simp [decodeRune, h1]
    · by_cases h2 : 194 ≤ c ∧ c ≤ 223
      · cases s1 with
        | cons c1 s2 => simp [decodeRune, h1, h2]
        | nil =>
          cases t with
          | nil => simp
          | cons u t1 =>
            have hu : u < 128 := asciiSpace_lt u (ht u (by simp))
            simp [decodeRune, h1, h2, show ¬(128 ≤ u ∧ u ≤ 191) by omega]
      · by_cases h3 : 224 ≤ c ∧ c ≤ 239
        · cases s1 with
          | nil =>
            cases t with
            | nil => simp
            | cons u t1 =>
              have hu : u < 128 := asciiSpace_lt u (ht u (by simp))
              cases t1 with
              | nil => simp [decodeRune, h1, h2, h3]
              | cons u2 t2 =>
                simp only [List.nil_append, List.cons_append, decodeRune]
                rw [if_neg h1, if_neg h2, if_pos h3, if_neg h1, if_neg h2, if_pos h3]
                rw [if_neg (by
                  rintro ⟨hlo, -⟩
                  split at hlo <;> omega)]
          | cons c1 s2 =>
            cases s2 with
            | nil =>
              cases t with
              | nil => simp
              | cons u t1 =>
                have hu : u < 128 := asciiSpace_lt u (ht u (by simp))
                simp only [List.cons_append, List.nil_append, decodeRune]
                rw [if_neg h1, if_neg h2, if_pos h3, if_neg h1, if_neg h2, if_pos h3]
                rw [if_neg (by
                  rintro ⟨-, -, hc2, -⟩
                  omega)]
            | cons c2 s3 => simp [decodeRune, h1, h2, h3]
        · by_cases h4 : 240 ≤ c ∧ c ≤ 244
          · cases s1 with
            | nil =>
              cases t with
              | nil => simp
              | cons u t1 =>
                have hu : u < 128 := asciiSpace_lt u (ht u (by simp))
                cases t1 with
                | nil => simp [decodeRune, h1, h2, h3, h4]
                | cons u2 t2 =>
                  cases t2 with
                  | nil => simp [decodeRune, h1, h2, h3, h4]
                  | cons u3 t3 =>
                    simp only [List.nil_append, List.cons_append, decodeRune]
                    rw [if_neg h1, if_neg h2, if_neg h3, if_pos h4,
                      if_neg h1, if_neg h2, if_neg h3, if_pos h4]
                    rw [if_neg (by
                      rintro ⟨hlo, -⟩
                      split at hlo <;> omega)]
            | cons c1 s2 =>
              cases s2 with
              | nil =>
                cases t with
                | nil => simp
                | cons u t1 =>
                  have hu : u < 128 := asciiSpace_lt u (ht u (by simp))
                  cases t1 with
                  | nil => simp [decodeRune, h1, h2, h3, h4]
                  | cons u2 t2 =>
                    simp only [List.cons_append, List.nil_append, decodeRune]
                    rw [if_neg h1, if_neg h2, if_neg h3, if_pos h4,
                      if_neg h1, if_neg h2, if_neg h3, if_pos h4]
                    rw [if_neg (by
                      rintro ⟨-, -, hc2, -⟩
                      omega)]
              | cons c2 s3 =>
                cases s3 with
                | nil =>
                  cases t with
                  | nil => simp
                  | cons u t1 =>
                    have hu : u < 128 := asciiSpace_lt u (ht u (by simp))
                    simp only [List.cons_append, List.nil_append, decodeRune]
                    rw [if_neg h1, if_neg h2, if_neg h3, if_pos h4,
                      if_neg h1, if_neg h2, if_neg h3, if_pos h4]
                    rw [if_neg (by
                      rintro ⟨-, -, -, -, hc3, -⟩
                      omega)]
                | cons c3 s4 => simp [decodeRune, h1, h2, h3, h4]
          · simp [decodeRune, h1, h2, h3, h4]

theorem trimLeftFuncF_nil (fuel : Nat) (p : Nat → Bool) : trimLeftFuncF fuel p [] = [] := by
  cases fuel <;> rfl

theorem trimRightFuncF_nil (fuel : Nat) (p : Nat → Bool) : trimRightFuncF fuel p [] = [] := by
  cases fuel <;> rfl

theorem trimLeftFuncF_fuel (fuel : Nat) :
    ∀ (fuel' : Nat) (p : Nat → Bool) (s : List Nat),
      s.length ≤ fuel → s.length ≤ fuel' →
      trimLeftFuncF fuel p s = trimLeftFuncF fuel' p s := by
  induction fuel with
  | zero =>
    intro fuel' p s hs _
    have hnil : s = [] := List.eq_nil_of_length_eq_zero (by omega)
    subst hnil
    rw [trimLeftFuncF_nil, trimLeftFuncF_nil]
  | succ f ih =>
    intro fuel' p s hs hs'
    cases s with
    | nil => rw [trimLeftFuncF_nil, trimLeftFuncF_nil]
    | cons c rest =>
      cases fuel' with
      | zero => simp at hs'
      | succ f' =>
        have hn1 : 1 ≤ (decodeRune (c :: rest)).2 := decodeRune_size_pos _ (by simp)
        have hlen : ((c :: rest).drop (decodeRune (c :: rest)).2).length ≤ f := by
          simp only [List.length_drop, List.length_cons] at *
          omega
        have hlen' : ((c :: rest).drop (decodeRune (c :: rest)).2).length ≤ f' := by
          simp only [List.length_drop, List.length_cons] at *
          omega
        by_cases hp : p (decodeRune (c :: rest)).1 = true
        · rw [trimLeftFuncF, trimLeftFuncF, if_pos hp, if_pos hp]
          exact ih f' p _ hlen hlen'
        · rw [trimLeftFuncF, trimLeftFuncF, if_neg hp, if_neg hp]

theorem size_pos_helper (d : Nat × Nat) (n : Nat) (hn : 1 ≤ n) :
    1 ≤ (if d.2 = n then d else (runeError, 1)).2 := by
  split
  · next heq => rw [heq]; exact hn
  · simp

theorem decodeLastRuneRev_size_pos (r : List Nat) (h : r ≠ []) :
    1 ≤ (decodeLastRuneRev r).2 := by
  cases r with
  | nil => exact absurd rfl h
  | cons c0 t =>
    by_cases hc : c0 < 128
    · simp [decodeLastRuneRev, hc]
    · simp only [decodeLastRuneRev]
      rw [if_neg hc]
      split
      · next n heq =>
        have hn : 1 ≤ n := by
          repeat' split at heq
          all_goals simp_all
          all_goals omega
        exact size_pos_helper _ _ hn
      · next heq =>
        split
        · exact size_pos_helper _ _ (by simp)
        · simp

theorem decodeLastRune_size_pos (s : List Nat) (h : s ≠ []) :
    1 ≤ (decodeLastRune s).2 := by
  rw [decodeLastRune]
  apply decodeLastRuneRev_size_pos
  simpa using h

theorem trimRightFuncF_fuel (fuel : Nat) :
    ∀ (fuel' : Nat) (p : Nat → Bool) (s : List Nat),
      s.length ≤ fuel → s.length ≤ fuel' →
      trimRightFuncF fuel p s = trimRightFuncF fuel' p s := by
  induction fuel with
  | zero =>
    intro fuel' p s hs _
    have hnil : s = [] := List.eq_nil_of_length_eq_zero (by omega)
    subst hnil
    rw [trimRightFuncF_nil, trimRightFuncF_nil]
  | succ f ih =>
    intro fuel' p s hs hs'
    cases s with
    | nil => rw [trimRightFuncF_nil, trimRightFuncF_nil]
    | cons c rest =>
      cases fuel' with
      | zero => simp at hs'
      | succ f' =>
        have hn1 : 1 ≤ (decodeLastRune (c :: rest)).2 := decodeLastRune_size_pos _ (by simp)
        have hlen : ((c :: rest).take ((c :: rest).length - (decodeLastRune (c :: rest)).2)).length ≤ f := by
          simp only [List.length_take, List.length_cons] at *
          omega
        have hlen' : ((c :: rest).take ((c :: rest).length - (decodeLastRune (c :: rest)).2)).length ≤ f' := by
          simp only [List.length_take, List.length_cons] at *
          omega
        by_cases hp : p (decodeLastRune (c :: rest)).1 = true
        · rw [trimRightFuncF, trimRightFuncF, if_pos hp, if_pos hp]
          exact ih f' p _ hlen hlen'
        · rw [trimRightFuncF, trimRightFuncF, if_neg hp, if_neg hp]

theorem trimLeftFuncF_unfold (fuel : Nat) (p : Nat → Bool) (s : List Nat)
    (h1 : 1 ≤ fuel) (h2 : s ≠ []) :
    trimLeftFuncF fuel p s =
      if p (decodeRune s).1 then trimLeftFuncF (fuel - 1) p (s.drop (decodeRune s).2)
      else s := by
  cases fuel with
  | zero => omega
  | succ f =>
    cases s with
    | nil => exact absurd rfl h2
    | cons c rest => rw [trimLeftFuncF]; rfl

theorem trimRightFuncF_unfold (fuel : Nat) (p : Nat → Bool) (s : List Nat)
    (h1 : 1 ≤ fuel) (h2 : s ≠ []) :
    trimRightFuncF fuel p s =
      if p (decodeLastRune s).1 then
        trimRightFuncF (fuel - 1) p (s.take (s.length - (decodeLastRune s).2))
      else s := by
  cases fuel with
  | zero => omega
  | succ f =>
    cases s with
    | nil => exact absurd rfl h2
    | cons c rest => rw [trimRightFuncF]; rfl

/-- Left space-trimming consumes a list of ASCII space bytes entirely. -/
theorem trimLeftFuncF_spaces (ws : List Nat) :
    ∀ fuel : Nat, ws.length ≤ fuel → (∀ c ∈ ws, asciiSpace c = true) →
      trimLeftFuncF fuel isSpaceGo ws = [] := by
  induction ws with
  | nil => intro fuel _ _; exact trimLeftFuncF_nil fuel _
  | cons c rest ih =>
    intro fuel hf hws
    have hc : asciiSpace c = true := hws c (by simp)
    have hc128 : c < 128 := asciiSpace_lt c hc
    have hdr : decodeRune (c :: rest) = (c, 1) := by simp [decodeRune, hc128]
    cases fuel with
    | zero => simp at hf
    | succ f =>
      rw [trimLeftFuncF, hdr, if_pos (isSpaceGo_ascii c hc)]
      simp only [List.drop_succ_cons, List.drop_zero]
      exact ih f (by simpa using hf) (fun d hd => hws d (by simp [hd]))

/-- The last rune of a list ending in an ASCII byte is that byte. -/
theorem decodeLastRune_concat_ascii (l : List Nat) (u : Nat) (hu : u < 128) :
    decodeLastRune (l ++ [u]) = (u, 1) := by
  rw [decodeLastRune, List.reverse_append]
  simp only [List.reverse_cons, List.reverse_nil, List.nil_append, List.singleton_append]
  simp only [decodeLastRuneRev]
  rw [if_pos hu]

/-- Right space-trimming ignores appended ASCII space bytes. -/
theorem trimRightFuncF_append_spaces (t : List Nat) :
    ∀ s : List Nat, (∀ c ∈ t, asciiSpace c = true) →
      trimRightFuncF (s ++ t).length isSpaceGo (s ++ t) =
        trimRightFuncF s.length isSpaceGo s := by
  induction t using List.reverseRecOn with
  | nil => intro s _; simp
  | append_singleton t0 u ih =>
    intro s ht
    have hu : asciiSpace u = true := ht u (by simp)
    have hu128 : u < 128 := asciiSpace_lt u hu
    have hassoc : s ++ (t0 ++ [u]) = (s ++ t0) ++ [u] := by simp
    rw [hassoc]
    have hne : (s ++ t0) ++ [u] ≠ [] := by simp
    have hlen : ((s ++ t0) ++ [u]).length = (s ++ t0).length + 1 := by
      simp
      omega
    rw [trimRightFuncF_unfold _ _ _ (by omega) hne]
    rw [decodeLastRune_concat_ascii _ u hu128]
    rw [if_pos (isSpaceGo_ascii u hu)]
    have htake : ((s ++ t0) ++ [u]).take (((s ++ t0) ++ [u]).length - 1) = s ++ t0 := by
      rw [hlen]
      simp only [Nat.add_sub_cancel]
      exact List.take_left _ _
    rw [htake, hlen]
    simp only [Nat.add_sub_cancel]
    exact ih s (fun c hc => ht c (by simp [hc]))

/-- Left trimming with appended bytes: either everything before `t` is
trimmed away, or `t` rides along untouched. -/
theorem trimLeftFuncF_append_aux (n : Nat) :
    ∀ (s t : List Nat), s.length ≤ n → (∀ c ∈ t, asciiSpace c = true) →
      trimLeftFuncF (s ++ t).length isSpaceGo (s ++ t) =
        (if trimLeftFuncF s.length isSpaceGo s = [] then []
         else trimLeftFuncF s.length isSpaceGo s ++ t) := by
  induction n with
  | zero =>
    intro s t hs ht
    have hnil : s = [] := List.eq_nil_of_length_eq_zero (by omega)
    subst hnil
    simp only [List.nil_append, List.length_nil, trimLeftFuncF_nil, if_pos rfl]
    exact trimLeftFuncF_spaces t t.length (Nat.le_refl _) ht
  | succ m ihs =>
    intro s t hsn ht
    cases s with
    | nil =>
      simp only [List.nil_append, List.length_nil, trimLeftFuncF_nil, if_pos rfl]
      exact trimLeftFuncF_spaces t t.length (Nat.le_refl _) ht
    | cons c s1 =>
      have hne : (c :: s1) ++ t ≠ [] := by simp
      have hd := decodeRune_append_spaces (c :: s1) t (by simp) ht
      have hn1 : 1 ≤ (decodeRune (c :: s1)).2 := decodeRune_size_pos _ (by simp)
      have hnle : (decodeRune (c :: s1)).2 ≤ (c :: s1).length := decodeRune_size_le _
      rw [trimLeftFuncF_unfold _ _ _ (by simp) hne, hd]
      rw [trimLeftFuncF_unfold (c :: s1).length _ (c :: s1) (by simp) (by simp)]
      by_cases hp : isSpaceGo (decodeRune (c :: s1)).1 = true
      · rw [if_pos hp, if_pos hp]
        have hdrop : ((c :: s1) ++ t).drop (decodeRune (c :: s1)).2 =
            (c :: s1).drop (decodeRune (c :: s1)).2 ++ t := by
          rw [List.drop_append_eq_append_drop]
          have : (decodeRune (c :: s1)).2 - (c :: s1).length = 0 := by omega
          rw [this, List.drop_zero]
        rw [hdrop]
        have hlt : ((c :: s1).drop (decodeRune (c :: s1)).2).length < (c :: s1).length := by
          simp only [List.length_drop]
          simp only [List.length_cons]
          omega
        have hfuel1 : (((c :: s1) ++ t).length - 1) ≥
            ((c :: s1).drop (decodeRune (c :: s1)).2 ++ t).length := by
          simp only [List.length_append, List.length_drop, List.length_cons]
          omega
        rw [trimLeftFuncF_fuel (((c :: s1) ++ t).length - 1)
          ((c :: s1).drop (decodeRune (c :: s1)).2 ++ t).length isSpaceGo
          ((c :: s1).drop (decodeRune (c :: s1)).2 ++ t) hfuel1 (Nat.le_refl _)]
        rw [trimLeftFuncF_fuel ((c :: s1).length - 1)
          ((c :: s1).drop (decodeRune (c :: s1)).2).length isSpaceGo
          ((c :: s1).drop (decodeRune (c :: s1)).2)
          (by simp only [List.length_drop]; omega) (Nat.le_refl _)]
        apply ihs ((c :: s1).drop (decodeRune (c :: s1)).2) t ?_ ht
        simp only [List.length_drop, List.length_cons]
        simp only [List.length_cons] at hsn
        omega
      · rw [if_neg hp, if_neg hp, if_neg (by simp)]

/-- Left trimming with appended ASCII spaces: either everything before `t`
is trimmed away, or the trimmed prefix survives with `t` attached. -/
theorem trimLeftFuncF_append (s t : List Nat) (ht : ∀ c ∈ t, asciiSpace c = true) :
    trimLeftFuncF (s ++ t).length isSpaceGo (s ++ t) =
      (if trimLeftFuncF s.length isSpaceGo s = [] then []
       else trimLeftFuncF s.length isSpaceGo s ++ t) :=
  trimLeftFuncF_append_aux s.length s t (Nat.le_refl _) ht

/-- `bytes.TrimFunc` with the space predicate ignores appended ASCII
spaces. -/
theorem trimFunc_append_spaces (b t : List Nat) (ht : ∀ c ∈ t, asciiSpace c = true) :
    trimFunc isSpaceGo (b ++ t) = trimFunc isSpaceGo b := by
  have hchar : trimFunc isSpaceGo (b ++ t) =
      trimRightFuncF (trimLeftFuncF (b ++ t).length isSpaceGo (b ++ t)).length isSpaceGo
        (trimLeftFuncF (b ++ t).length isSpaceGo (b ++ t)) := rfl
  have hchar2 : trimFunc isSpaceGo b =
      trimRightFuncF (trimLeftFuncF b.length isSpaceGo b).length isSpaceGo
        (trimLeftFuncF b.length isSpaceGo b) := rfl
  rw [hchar, hchar2, trimLeftFuncF_append b t ht]
  by_cases hnil : trimLeftFuncF b.length isSpaceGo b = []
  · rw [if_pos hnil, hnil]
  · rw [if_neg hnil]
    exact trimRightFuncF_append_spaces t (trimLeftFuncF b.length isSpaceGo b) ht

theorem trimSpace_spaces (ws : List Nat) (h : ∀ c ∈ ws, asciiSpace c = true) :
    trimSpace ws = [] := by
  induction ws with
  | nil => rfl
  | cons c rest ih =>
    have hc : asciiSpace c = true := h c (by simp)
    have hc128 : c < 128 := asciiSpace_lt c hc
    rw [trimSpace, if_neg (by omega), if_pos hc]
    exact ih (fun d hd => h d (by simp [hd]))

theorem trimSpace_append_left (ws : List Nat) :
    ∀ rest : List Nat, (∀ c ∈ ws, asciiSpace c = true) →
      trimSpace (ws ++ rest) = trimSpace rest := by
  induction ws with
  | nil => intro rest _; rfl
  | cons c w1 ih =>
    intro rest h
    have hc : asciiSpace c = true := h c (by simp)
    have hc128 : c < 128 := asciiSpace_lt c hc
    rw [List.cons_append, trimSpace, if_neg (by omega), if_pos hc]
    exact ih rest (fun d hd => h d (by simp [hd]))

theorem tsr_append_spaces (w : List Nat) :
    ∀ r : List Nat, (∀ c ∈ w, asciiSpace c = true) → tsr (w ++ r) = tsr r := by
  induction w with
  | nil => intro r _; rfl
  | cons c w1 ih =>
    intro r h
    have hc : asciiSpace c = true := h c (by simp)
    have hc128 : c < 128 := asciiSpace_lt c hc
    rw [List.cons_append, tsr, if_neg (by omega), if_pos hc]
    exact ih r (fun d hd => h d (by simp [hd]))

/-- `bytes.TrimSpace` ignores appended trailing ASCII spaces. -/
theorem trimSpace_append_spaces (b : List Nat) :
    ∀ t : List Nat, (∀ c ∈ t, asciiSpace c = true) →
      trimSpace (b ++ t) = trimSpace b := by
  induction b with
  | nil =>
    intro t ht
    rw [List.nil_append]
    exact trimSpace_spaces t ht
  | cons c b1 ih =>
    intro t ht
    by_cases h128 : 128 ≤ c
    · rw [List.cons_append, trimSpace, if_pos h128, trimSpace, if_pos h128]
      exact trimFunc_append_spaces (c :: b1) t ht
    · by_cases hsp : asciiSpace c = true
      · rw [List.cons_append, trimSpace, if_neg h128, if_pos hsp,
          trimSpace, if_neg h128, if_pos hsp]
        exact ih t ht
      · rw [List.cons_append, trimSpace, if_neg h128, if_neg hsp,
          trimSpace, if_neg h128, if_neg hsp]
        have hrev : (c :: (b1 ++ t)).reverse = t.reverse ++ (c :: b1).reverse := by
          simp
        rw [hrev, tsr_append_spaces t.reverse ((c :: b1).reverse)
          (fun d hd => ht d (by simpa using hd))]

/-- Claim C9: the plain-document entry point `Parse` trims leading and
trailing whitespace before parsing — a successful result retains exactly the
trimmed bytes as its message — and parsing an input equals parsing the same
input surrounded by extra (ASCII) whitespace. -/
theorem claim9_parse_trims_whitespace :
    (∀ (st : Stages) (b : List Nat) (pj : ParsedJson),
        Parse true st b = .ok pj → pj.message = trimSpace b) ∧
    (∀ (st : Stages) (b ws ws2 : List Nat),
        (∀ c ∈ ws, asciiSpace c = true) → (∀ c ∈ ws2, asciiSpace c = true) →
        Parse true st (ws ++ b ++ ws2) = Parse true st b) := by
  constructor
  · intro st b pj h
    simp only [Parse] at h
    rw [if_neg (by decide)] at h
    by_cases h1 : st.stage1ok (trimSpace b) = false
    · simp [parseMessage, h1] at h
    · by_cases h2 : st.stage2ok (trimSpace b) = false
      · simp [parseMessage, h1, h2] at h
      · simp [parseMessage, h1, h2] at h
        rw [← h]
  · intro st b ws ws2 hws hws2
    have ht : trimSpace (ws ++ b ++ ws2) = trimSpace b := by
      rw [List.append_assoc, trimSpace_append_left ws _ hws]
      exact trimSpace_append_spaces b ws2 hws2
    simp only [Parse, if_neg (show ¬ (true = false) by decide)]
    simp only [parseMessage, ht]

theorem claim9_witness :
    pjOne.message = trimSpace [32, 49, 32] ∧
    Parse true stTrue ([32] ++ [123, 125] ++ [32, 9]) = Parse true stTrue [123, 125] :=
  ⟨claim9_parse_trims_whitespace.1 stTrue [32, 49, 32] pjOne rfl,
   claim9_parse_trims_whitespace.2 stTrue [123, 125] [32] [32, 9] (by decide) (by decide)⟩

/-! ### Valid-number rendering lemmas (claim C1) -/

theorem lor_eq_zero_iff (a b : Nat) : a ||| b = 0 ↔ a = 0 ∧ b = 0 := by
  constructor
  · intro h
    constructor
    · by_contra ha
      exact lor_ne_zero_of_left a b ha h
    · by_contra hb
      exact lor_ne_zero_of_right a b hb h
  · rintro ⟨rfl, rfl⟩
    rfl

theorem validNum_parts (n : JsonNum) (hn : ValidNum n) :
    n.ip ≠ [] ∧ (∀ c ∈ n.ip, isDigitB c = true) ∧
    (n.ip.length ≤ 1 ∨ n.ip.headD 0 ≠ 48) ∧
    (∀ l, n.frac = some l → l ≠ [] ∧ ∀ c ∈ l, isDigitB c = true) ∧
    (∀ ex, n.exp = some ex → (ex.eChar = 101 ∨ ex.eChar = 69) ∧
      (ex.sign = none ∨ ex.sign = some 43 ∨ ex.sign = some 45) ∧
      ex.digits ≠ [] ∧ (∀ c ∈ ex.digits, isDigitB c = true)) := by
  unfold ValidNum validNumB at hn
  simp only [Bool.and_eq_true] at hn
  obtain ⟨⟨⟨⟨hip, hipd⟩, hlz⟩, hfr⟩, hex⟩ := hn
  refine ⟨?_, ?_, ?_, ?_, ?_⟩
  · intro h
    rw [h] at hip
    simp at hip
  · intro c hc
    simp only [allDigitsB, List.all_eq_true] at hipd
    exact hipd c hc
  · simpa using hlz
  · intro l hl
    rw [hl] at hfr
    simp only [Bool.and_eq_true, allDigitsB, List.all_eq_true] at hfr
    exact ⟨fun h => by rw [h] at hfr; simp at hfr, hfr.2⟩
  · intro ex hx
    rw [hx] at hex
    simp only [Bool.and_eq_true, Bool.or_eq_true, decide_eq_true_eq, allDigitsB,
      List.all_eq_true] at hex
    obtain ⟨⟨⟨hc, hs⟩, hd⟩, hdd⟩ := hex
    refine ⟨hc, ?_, fun h => by rw [h] at hd; simp at hd, hdd⟩
    cases hq : ex.sign with
    | none => exact Or.inl rfl
    | some c =>
      rw [hq] at hs
      simp only [Bool.or_eq_true, decide_eq_true_eq] at hs
      rcases hs with h43 | h45
      · exact Or.inr (Or.inl (by rw [h43]))
      · exact Or.inr (Or.inr (by rw [h45]))

theorem nextIsDigit_append (l m : List Nat) (h : l ≠ []) :
    nextIsDigit (l ++ m) = nextIsDigit l := by
  cases l with
  | nil => exact absurd rfl h
  | cons c t => rfl

theorem nextIsDigit_digit (d : Nat) (t : List Nat) (hd : isDigitB d = true) :
    nextIsDigit (d :: t) = true := by
  simp only [nextIsDigit, decide_eq_true_eq]
  rw [isNumberRune_digit d hd]
  decide

theorem goodScanB_cons_nomust (c : Nat) (t : List Nat)
    (h0 : isNumberRune c ≠ 0) (h8 : isNumberRune c ≠ isEOVFlag)
    (hm : isNumberRune c &&& isMustHaveDigitNext = 0) :
    goodScanB (c :: t) = goodScanB t := by
  simp [goodScanB, h0, h8, hm]

theorem goodScanB_cons_mustdigit (c : Nat) (t : List Nat)
    (h0 : isNumberRune c ≠ 0) (h8 : isNumberRune c ≠ isEOVFlag)
    (hnd : nextIsDigit t = true) :
    goodScanB (c :: t) = goodScanB t := by
  simp [goodScanB, h0, h8, hnd]

theorem goodScanB_cons_digit (d : Nat) (t : List Nat) (hd : isDigitB d = true) :
    goodScanB (d :: t) = goodScanB t := by
  apply goodScanB_cons_nomust
  · rw [isNumberRune_digit d hd]
    decide
  · rw [isNumberRune_digit d hd]
    decide
  · rw [isNumberRune_digit d hd]
    decide

theorem goodScanB_digits (ds tail : List Nat) (h : ∀ c ∈ ds, isDigitB c = true) :
    goodScanB (ds ++ tail) = goodScanB tail := by
  induction ds with
  | nil => rfl
  | cons d t ih =>
    rw [List.cons_append, goodScanB_cons_digit d _ (h d (by simp))]
    exact ih (fun c hc => h c (by simp [hc]))

theorem goodScanB_all_digits (ds : List Nat) (h : ∀ c ∈ ds, isDigitB c = true) :
    goodScanB ds = true := by
  have := goodScanB_digits ds [] h
  rw [List.append_nil] at this
  rw [this]
  rfl

theorem goodScanB_expRender (ex : JsonExp)
    (hc : ex.eChar = 101 ∨ ex.eChar = 69)
    (hs : ex.sign = none ∨ ex.sign = some 43 ∨ ex.sign = some 45)
    (hd : ex.digits ≠ []) (hdd : ∀ c ∈ ex.digits, isDigitB c = true) :
    goodScanB (expRender (some ex)) = true := by
  obtain ⟨d, ds, hds⟩ : ∃ d ds, ex.digits = d :: ds := by
    cases hq : ex.digits with
    | nil => exact absurd hq hd
    | cons a as => exact ⟨a, as, rfl⟩
  have hddig : isDigitB d = true := hdd d (by rw [hds]; simp)
  have hdone : goodScanB ex.digits = true := goodScanB_all_digits _ hdd
  have hrune : isNumberRune ex.eChar = 3 := by
    rcases hc with h | h <;> rw [h] <;> decide
  have hbody : goodScanB ((match ex.sign with | none => [] | some c => [c]) ++ ex.digits)
      = true := by
    rcases hs with h | h | h <;> rw [h]
    · simpa using hdone
    · rw [List.singleton_append, goodScanB_cons_nomust 43 _ (by decide) (by decide) (by decide)]
      exact hdone
    · rw [List.singleton_append,
        goodScanB_cons_mustdigit 45 _ (by decide) (by decide)
          (by rw [hds]; exact nextIsDigit_digit d ds hddig)]
      exact hdone
  rw [expRender, goodScanB_cons_nomust _ _ (by rw [hrune]; decide) (by rw [hrune]; decide)
    (by rw [hrune]; decide)]
  exact hbody

theorem goodScanB_render (n : JsonNum) (hn : ValidNum n) :
    goodScanB (render n) = true := by
  obtain ⟨hip, hipd, _, hfr, hex⟩ := validNum_parts n hn
  obtain ⟨d0, ipt, hipe⟩ : ∃ d0 ipt, n.ip = d0 :: ipt := by
    cases hq : n.ip with
    | nil => exact absurd hq hip
    | cons a as => exact ⟨a, as, rfl⟩
  have hd0 : isDigitB d0 = true := hipd d0 (by rw [hipe]; simp)
  have hexp : goodScanB (expRender n.exp) = true := by
    cases hq : n.exp with
    | none => rfl
    | some ex =>
      obtain ⟨h1, h2, h3, h4⟩ := hex ex hq
      exact goodScanB_expRender ex h1 h2 h3 h4
  have hfrac : goodScanB (fracRender n.frac ++ expRender n.exp) = true := by
    cases hq : n.frac with
    | none => simpa [fracRender] using hexp
    | some l =>
      obtain ⟨hl, hld⟩ := hfr l hq
      obtain ⟨d, ds, hds⟩ : ∃ d ds, l = d :: ds := by
        cases hw : l with
        | nil => exact absurd hw hl
        | cons a as => exact ⟨a, as, rfl⟩
      have hdd : isDigitB d = true := hld d (by rw [hds]; simp)
      rw [fracRender, List.cons_append,
        goodScanB_cons_mustdigit 46 _ (by decide) (by decide)
          (by rw [hds, List.cons_append]; exact nextIsDigit_digit d _ hdd),
        goodScanB_digits l _ hld]
      exact hexp
  have hipTail : goodScanB (n.ip ++ (fracRender n.frac ++ expRender n.exp)) = true := by
    rw [goodScanB_digits _ _ hipd]
    exact hfrac
  cases hneg : n.neg with
  | false =>
    rw [render, hneg]
    simpa using hipTail
  | true =>
    rw [render, hneg]
    simp only [if_true, List.singleton_append, List.cons_append]
    rw [goodScanB_cons_mustdigit 45 _ (by decide) (by decide) ?hdig]
    case hdig =>
      rw [hipe]
      simp only [List.nil_append, List.cons_append]
      exact nextIsDigit_digit d0 _ hd0
    simp only [List.nil_append]
    rw [← List.append_assoc] at hipTail
    exact hipTail

theorem scanNum_append_eov (e : Nat) (rest : List Nat) (he : isNumberRune e = isEOVFlag) :
    ∀ (l : List Nat) (f p : Nat), goodScanB l = true →
      scanNum (l ++ e :: rest) f p = some (foundAcc f l, p + l.length) := by
  intro l
  induction l with
  | nil =>
    intro f p _
    rw [List.nil_append, scanNum, if_neg (by rw [he]; decide), if_pos he]
    simp [foundAcc]
  | cons c t ih =>
    intro f p hg
    simp only [goodScanB, Bool.and_eq_true, Bool.or_eq_true, decide_eq_true_eq] at hg
    obtain ⟨⟨⟨h0, h8⟩, hor⟩, hgt⟩ := hg
    rw [List.cons_append, scanNum, if_neg h0, if_neg h8, if_neg ?hmust]
    case hmust =>
      intro hcon
      rcases hor with hz | hnd
      · exact hcon.1 hz
      · have ht : t ≠ [] := by
          intro h
          rw [h] at hnd
          exact absurd hnd (by decide)
        rw [nextIsDigit_append t (e :: rest) ht, hnd] at hcon
        exact absurd hcon.2 (by decide)
    rw [ih (f ||| isNumberRune c) (p + 1) hgt]
    have hfa : foundAcc f (c :: t) = foundAcc (f ||| isNumberRune c) t := rfl
    have hlen : p + 1 + t.length = p + (c :: t).length := by
      simp only [List.length_cons]
      omega
    rw [hfa, hlen]

theorem takeWhile_all (p : Nat → Bool) (l : List Nat) (h : ∀ c ∈ l, p c) :
    l.takeWhile p = l := by
  have := takeWhile_append_all p l [] h
  simpa using this

theorem dropWhile_all (p : Nat → Bool) (l : List Nat) (h : ∀ c ∈ l, p c) :
    l.dropWhile p = [] := by
  have := dropWhile_append_all p l [] h
  simpa using this

theorem foundAcc_flag_zero (f : Nat) (l : List Nat) :
    ∀ a : Nat, a &&& f = 0 → (∀ c ∈ l, isNumberRune c &&& f = 0) →
      foundAcc a l &&& f = 0 := by
  induction l with
  | nil =>
    intro a ha _
    exact ha
  | cons c t ih =>
    intro a ha hall
    show foundAcc (a ||| isNumberRune c) t &&& f = 0
    apply ih
    · rw [land_lor_distrib_right, ha, hall c (by simp)]
      rfl
    · exact fun d hd => hall d (by simp [hd])

theorem foundAcc_flag_acc (f : Nat) (l : List Nat) :
    ∀ a : Nat, a &&& f ≠ 0 → foundAcc a l &&& f ≠ 0 := by
  induction l with
  | nil =>
    intro a ha
    exact ha
  | cons c t ih =>
    intro a ha
    show foundAcc (a ||| isNumberRune c) t &&& f ≠ 0
    apply ih
    rw [land_lor_distrib_right]
    exact lor_ne_zero_of_left _ _ ha

theorem foundAcc_flag_mem (f : Nat) (l : List Nat) :
    ∀ a : Nat, (∃ c ∈ l, isNumberRune c &&& f ≠ 0) → foundAcc a l &&& f ≠ 0 := by
  induction l with
  | nil =>
    intro a h
    simp at h
  | cons c t ih =>
    intro a h
    obtain ⟨x, hx, hxf⟩ := h
    rcases List.mem_cons.mp hx with rfl | hmem
    · show foundAcc (a ||| isNumberRune x) t &&& f ≠ 0
      apply foundAcc_flag_acc
      rw [land_lor_distrib_right]
      exact lor_ne_zero_of_right _ _ hxf
    · show foundAcc (a ||| isNumberRune c) t &&& f ≠ 0
      exact ih _ ⟨x, hmem, hxf⟩

theorem foldl_digits_lower (ds : List Nat) :
    ∀ a : Nat, a * 10 ^ ds.length ≤ ds.foldl (fun x c => x * 10 + (c - 48)) a := by
  induction ds with
  | nil =>
    intro a
    simpa using Nat.le_refl a
  | cons c t ih =>
    intro a
    simp only [List.foldl_cons, List.length_cons]
    have h1 : a * 10 ^ (t.length + 1) ≤ (a * 10 + (c - 48)) * 10 ^ t.length := by
      have h2 : a * 10 ^ (t.length + 1) = (a * 10) * 10 ^ t.length := by ring
      rw [h2]
      exact Nat.mul_le_mul_right _ (by omega)
    exact le_trans h1 (ih (a * 10 + (c - 48)))

theorem natOfDigits_lower (d : Nat) (ds : List Nat) (hd : 49 ≤ d) :
    10 ^ ds.length ≤ natOfDigits (d :: ds) := by
  have h := foldl_digits_lower ds (d - 48)
  have he : natOfDigits (d :: ds) = ds.foldl (fun x c => x * 10 + (c - 48)) (d - 48) := by
    simp [natOfDigits, List.foldl_cons]
  rw [he]
  have h2 : 1 * 10 ^ ds.length ≤ (d - 48) * 10 ^ ds.length :=
    Nat.mul_le_mul_right _ (by omega)
  omega

theorem natOfDigits_upper (ds : List Nat) (h : ∀ c ∈ ds, isDigitB c = true) :
    natOfDigits ds < 10 ^ ds.length := by
  have := foldl_digits_lt ds h 0
  simpa [natOfDigits] using this

theorem render_int (n : JsonNum) (hf : n.frac = none) (he : n.exp = none) :
    render n = (if n.neg then [45] else []) ++ n.ip := by
  rw [render, hf, he]
  simp [fracRender, expRender]

theorem render_float_zero (n : JsonNum) (hn : ValidNum n) (hf : n.frac = none)
    (he : n.exp = none) :
    foundAcc 0 (render n) &&& isFloatOnlyFlag = 0 := by
  obtain ⟨_, hipd, _⟩ := validNum_parts n hn
  apply foundAcc_flag_zero
  · rfl
  · intro c hc
    rw [render_int n hf he] at hc
    rcases List.mem_append.mp hc with h45 | hipm
    · have hc45 : c = 45 := by
        cases hneg : n.neg
        · rw [hneg] at h45
          simp at h45
        · rw [hneg] at h45
          simpa using h45
      rw [hc45]
      decide
    · rw [isNumberRune_digit c (hipd c hipm)]
      decide

theorem render_minus_zero (n : JsonNum) (hn : ValidNum n) (hf : n.frac = none)
    (he : n.exp = none) (hneg : n.neg = false) :
    foundAcc 0 (render n) &&& isMinusFlag = 0 := by
  obtain ⟨_, hipd, _⟩ := validNum_parts n hn
  apply foundAcc_flag_zero
  · rfl
  · intro c hc
    rw [render_int n hf he, hneg] at hc
    simp only [Bool.false_eq_true, if_false, List.nil_append] at hc
    rw [isNumberRune_digit c (hipd c hc)]
    decide

theorem render_minus_ne (n : JsonNum) (hneg : n.neg = true) :
    foundAcc 0 (render n) &&& isMinusFlag ≠ 0 := by
  apply foundAcc_flag_mem
  refine ⟨45, ?_, by decide⟩
  rw [render, hneg]
  simp

theorem render_float_ne (n : JsonNum) (hn : ValidNum n)
    (h : n.frac ≠ none ∨ n.exp ≠ none) :
    foundAcc 0 (render n) &&& isFloatOnlyFlag ≠ 0 := by
  apply foundAcc_flag_mem
  rcases h with h | h
  · obtain ⟨l, hl⟩ : ∃ l, n.frac = some l := by
      cases hq : n.frac with
      | none => exact absurd hq h
      | some l => exact ⟨l, rfl⟩
    refine ⟨46, ?_, by decide⟩
    rw [render, hl]
    simp [fracRender]
  · obtain ⟨ex, hx⟩ : ∃ ex, n.exp = some ex := by
      cases hq : n.exp with
      | none => exact absurd hq h
      | some ex => exact ⟨ex, rfl⟩
    obtain ⟨hc, _⟩ := (validNum_parts n hn).2.2.2.2 ex hx
    refine ⟨ex.eChar, ?_, ?_⟩
    · rw [render, hx]
      simp [expRender]
    · rcases hc with h1 | h1 <;> rw [h1] <;> decide

theorem prMatch_digit (d : Nat) (ds : List Nat) (hd : 48 ≤ d) (hd2 : d ≤ 57) :
    (match d :: ds with
      | 43 :: t => (false, t)
      | 45 :: t => (true, t)
      | x => (false, d :: ds)) = (false, d :: ds) := by
  interval_cases d <;> rfl

theorem epMatch_digit (t0 : List Nat) (d : Nat) (ds : List Nat)
    (ht : t0 = d :: ds) (hd : 48 ≤ d) (hd2 : d ≤ 57) :
    (match t0 with
      | 43 :: u => ((1 : Int), u)
      | 45 :: u => ((-1 : Int), u)
      | x => ((1 : Int), t0)) = (1, t0) := by
  subst ht
  interval_cases d <;> rfl

theorem goParseFloat_render (n : JsonNum) (hn : ValidNum n) :
    goParseFloat (render n) = floatBits64 n.neg (mantOf n) (e10Of n) := by
  obtain ⟨hip, hipd, hlz, hfr, hex⟩ := validNum_parts n hn
  obtain ⟨d0, ipt, hipe⟩ : ∃ d0 ipt, n.ip = d0 :: ipt := by
    cases hq : n.ip with
    | nil => exact absurd hq hip
    | cons a as => exact ⟨a, as, rfl⟩
  have hd0 : isDigitB d0 = true := hipd d0 (by rw [hipe]; simp)
  -- takeWhile/dropWhile over the exponent block
  have expTW : (expRender n.exp).takeWhile isDigitB = [] := by
    cases hq : n.exp with
    | none => rfl
    | some ex =>
      obtain ⟨hc, _, _, _⟩ := hex ex hq
      rw [expRender, List.takeWhile_cons_of_neg]
      rcases hc with h | h <;> rw [h] <;> decide
  have expDW : (expRender n.exp).dropWhile isDigitB = expRender n.exp := by
    cases hq : n.exp with
    | none => rfl
    | some ex =>
      obtain ⟨hc, _, _, _⟩ := hex ex hq
      rw [expRender, List.dropWhile_cons_of_neg]
      rcases hc with h | h <;> rw [h] <;> decide
  have feTW : (fracRender n.frac ++ expRender n.exp).takeWhile isDigitB = [] := by
    cases hq : n.frac with
    | none => simpa [fracRender] using expTW
    | some l =>
      rw [fracRender, List.cons_append, List.takeWhile_cons_of_neg]
      decide
  have feDW : (fracRender n.frac ++ expRender n.exp).dropWhile isDigitB =
      fracRender n.frac ++ expRender n.exp := by
    cases hq : n.frac with
    | none => simpa [fracRender] using expDW
    | some l =>
      rw [fracRender, List.cons_append, List.dropWhile_cons_of_neg]
      decide
  have hs1tw : ((n.ip ++ fracRender n.frac) ++ expRender n.exp).takeWhile isDigitB = n.ip := by
    rw [List.append_assoc, takeWhile_append_all _ _ _ hipd, feTW, List.append_nil]
  have hs1dw : ((n.ip ++ fracRender n.frac) ++ expRender n.exp).dropWhile isDigitB =
      fracRender n.frac ++ expRender n.exp := by
    rw [List.append_assoc, dropWhile_append_all _ _ _ hipd, feDW]
  have hedParts : ∀ ex, n.exp = some ex →
      (ex.digits.takeWhile isDigitB = ex.digits ∧ ex.digits.dropWhile isDigitB = []) := by
    intro ex hq
    obtain ⟨_, _, _, hdd⟩ := hex ex hq
    exact ⟨takeWhile_all _ _ hdd, dropWhile_all _ _ hdd⟩
  cases hneg : n.neg with
  | true =>
    have hrender : render n = 45 :: ((n.ip ++ fracRender n.frac) ++ expRender n.exp) := by
      rw [render, hneg]
      simp
    rw [hrender]
    simp only [goParseFloat]
    rw [hs1tw, hs1dw]
    cases hfq : n.frac with
    | some l =>
      obtain ⟨hl, hld⟩ := hfr l hfq
      have hlw : (l ++ expRender n.exp).takeWhile isDigitB = l := by
        rw [takeWhile_append_all _ _ _ hld, expTW, List.append_nil]
      have hldw : (l ++ expRender n.exp).dropWhile isDigitB = expRender n.exp := by
        rw [dropWhile_append_all _ _ _ hld, expDW]
      simp only [fracRender, List.cons_append]
      simp only [hlw, hldw]
      rw [if_neg (fun hcon => hip hcon.1)]
      cases hxq : n.exp with
      | none =>
        simp only [expRender]
        simp [mantOf, e10Of, fracDigits, hfq, hxq]
      | some ex =>
        obtain ⟨hc, hs, hd, hdd⟩ := hex ex hxq
        obtain ⟨htwd, hdwd⟩ := hedParts ex hxq
        rcases hs with hsq | hsq | hsq <;>
          rcases hc with hcq | hcq <;>
            simp only [expRender, hsq, hcq, List.nil_append, List.singleton_append,
              List.cons_append, true_or, or_true, if_true]
        -- sign = none subcases: reduce the exponent-sign match
        case inl.inl =>
          obtain ⟨d, ds, hde⟩ : ∃ d ds, ex.digits = d :: ds := by
            cases hw : ex.digits with
            | nil => exact absurd hw hd
            | cons a as => exact ⟨a, as, rfl⟩
          obtain ⟨hd48, hd57⟩ : 48 ≤ d ∧ d ≤ 57 := by
            have := hdd d (by rw [hde]; simp)
            simp only [isDigitB, Bool.and_eq_true, decide_eq_true_eq] at this
            exact this
          rw [epMatch_digit ex.digits d ds hde hd48 hd57]
          simp only [htwd, hdwd]
          rw [if_neg (by simp [hd])]
          simp [mantOf, e10Of, fracDigits, hfq, hxq, hsq]
        case inl.inr =>
          obtain ⟨d, ds, hde⟩ : ∃ d ds, ex.digits = d :: ds := by
            cases hw : ex.digits with
            | nil => exact absurd hw hd
            | cons a as => exact ⟨a, as, rfl⟩
          obtain ⟨hd48, hd57⟩ : 48 ≤ d ∧ d ≤ 57 := by
            have := hdd d (by rw [hde]; simp)
            simp only [isDigitB, Bool.and_eq_true, decide_eq_true_eq] at this
            exact this
          rw [epMatch_digit ex.digits d ds hde hd48 hd57]
          simp only [htwd, hdwd]
          rw [if_neg (by simp [hd])]
          simp [mantOf, e10Of, fracDigits, hfq, hxq, hsq]
        all_goals
          simp only [htwd, hdwd]
          rw [if_neg (by simp [hd])]
          simp [mantOf, e10Of, fracDigits, hfq, hxq, hsq]
    | none =>
      simp only [fracRender, List.nil_append]
      cases hxq : n.exp with
      | none =>
        simp only [expRender]
        rw [if_neg (fun hcon => hip hcon.1)]
        simp [mantOf, e10Of, fracDigits, hfq, hxq]
      | some ex =>
        obtain ⟨hc, hs, hd, hdd⟩ := hex ex hxq
        obtain ⟨htwd, hdwd⟩ := hedParts ex hxq
        rcases hs with hsq | hsq | hsq <;>
          rcases hc with hcq | hcq <;>
            simp only [expRender, hsq, hcq, List.nil_append, List.singleton_append,
              List.cons_append, true_or, or_true, if_true] <;>
          rw [if_neg (fun hcon => hip hcon.1)]
        case inl.inl =>
          obtain ⟨d, ds, hde⟩ : ∃ d ds, ex.digits = d :: ds := by
            cases hw : ex.digits with
            | nil => exact absurd hw hd
            | cons a as => exact ⟨a, as, rfl⟩
          obtain ⟨hd48, hd57⟩ : 48 ≤ d ∧ d ≤ 57 := by
            have := hdd d (by rw [hde]; simp)
            simp only [isDigitB, Bool.and_eq_true, decide_eq_true_eq] at this
            exact this
          rw [epMatch_digit ex.digits d ds hde hd48 hd57]
          simp only [htwd, hdwd]
          rw [if_neg (by simp [hd])]
          simp [mantOf, e10Of, fracDigits, hfq, hxq, hsq]
        case inl.inr =>
          obtain ⟨d, ds, hde⟩ : ∃ d ds, ex.digits = d :: ds := by
            cases hw : ex.digits with
            | nil => exact absurd hw hd
            | cons a as => exact ⟨a, as, rfl⟩
          obtain ⟨hd48, hd57⟩ : 48 ≤ d ∧ d ≤ 57 := by
            have := hdd d (by rw [hde]; simp)
            simp only [isDigitB, Bool.and_eq_true, decide_eq_true_eq] at this
            exact this
          rw [epMatch_digit ex.digits d ds hde hd48 hd57]
          simp only [htwd, hdwd]
          rw [if_neg (by simp [hd])]
          simp [mantOf, e10Of, fracDigits, hfq, hxq, hsq]
        all_goals
          simp only [htwd, hdwd]
          rw [if_neg (by simp [hd])]
          simp [mantOf, e10Of, fracDigits, hfq, hxq, hsq]
  | false =>
    have hrender : render n = (n.ip ++ fracRender n.frac) ++ expRender n.exp := by
      rw [render, hneg]
      simp
    have hrcons : render n = d0 :: ((ipt ++ fracRender n.frac) ++ expRender n.exp) := by
      rw [hrender, hipe]
      simp
    obtain ⟨hd048, hd057⟩ : 48 ≤ d0 ∧ d0 ≤ 57 := by
      have := hd0
      simp only [isDigitB, Bool.and_eq_true, decide_eq_true_eq] at this
      exact this
    rw [hrcons]
    simp only [goParseFloat]
    rw [prMatch_digit d0 ((ipt ++ fracRender n.frac) ++ expRender n.exp) hd048 hd057]
    dsimp only
    rw [← hrcons]
    have hs1tw2 : (render n).takeWhile isDigitB = n.ip := by
      rw [hrender]
      exact hs1tw
    have hs1dw2 : (render n).dropWhile isDigitB = fracRender n.frac ++ expRender n.exp := by
      rw [hrender]
      exact hs1dw
    rw [hs1tw2, hs1dw2]
    cases hfq : n.frac with
    | some l =>
      obtain ⟨hl, hld⟩ := hfr l hfq
      have hlw : (l ++ expRender n.exp).takeWhile isDigitB = l := by
        rw [takeWhile_append_all _ _ _ hld, expTW, List.append_nil]
      have hldw : (l ++ expRender n.exp).dropWhile isDigitB = expRender n.exp := by
        rw [dropWhile_append_all _ _ _ hld, expDW]
      simp only [fracRender, List.cons_append]
      simp only [hlw, hldw]
      rw [if_neg (fun hcon => hip hcon.1)]
      cases hxq : n.exp with
      | none =>
        simp only [expRender]
        simp [mantOf, e10Of, fracDigits, hfq, hxq]
      | some ex =>
        obtain ⟨hc, hs, hd, hdd⟩ := hex ex hxq
        obtain ⟨htwd, hdwd⟩ := hedParts ex hxq
        rcases hs with hsq | hsq | hsq <;>
          rcases hc with hcq | hcq <;>
            simp only [expRender, hsq, hcq, List.nil_append, List.singleton_append,
              List.cons_append, true_or, or_true, if_true]
        case inl.inl =>
          obtain ⟨d, ds, hde⟩ : ∃ d ds, ex.digits = d :: ds := by
            cases hw : ex.digits with
            | nil => exact absurd hw hd
            | cons a as => exact ⟨a, as, rfl⟩
          obtain ⟨hd48, hd57⟩ : 48 ≤ d ∧ d ≤ 57 := by
            have := hdd d (by rw [hde]; simp)
            simp only [isDigitB, Bool.and_eq_true, decide_eq_true_eq] at this
            exact this
          rw [epMatch_digit ex.digits d ds hde hd48 hd57]
          simp only [htwd, hdwd]
          rw [if_neg (by simp [hd])]
          simp [mantOf, e10Of, fracDigits, hfq, hxq, hsq]
        case inl.inr =>
          obtain ⟨d, ds, hde⟩ : ∃ d ds, ex.digits = d :: ds := by
            cases hw : ex.digits with
            | nil => exact absurd hw hd
            | cons a as => exact ⟨a, as, rfl⟩
          obtain ⟨hd48, hd57⟩ : 48 ≤ d ∧ d ≤ 57 := by
            have := hdd d (by rw [hde]; simp)
            simp only [isDigitB, Bool.and_eq_true, decide_eq_true_eq] at this
            exact this
          rw [epMatch_digit ex.digits d ds hde hd48 hd57]
          simp only [htwd, hdwd]
          rw [if_neg (by simp [hd])]
          simp [mantOf, e10Of, fracDigits, hfq, hxq, hsq]
        all_goals
          simp only [htwd, hdwd]
          rw [if_neg (by simp [hd])]
          simp [mantOf, e10Of, fracDigits, hfq, hxq, hsq]
    | none =>
      simp only [fracRender, List.nil_append]
      cases hxq : n.exp with
      | none =>
        simp only [expRender]
        rw [if_neg (fun hcon => hip hcon.1)]
        simp [mantOf, e10Of, fracDigits, hfq, hxq]
      | some ex =>
        obtain ⟨hc, hs, hd, hdd⟩ := hex ex hxq
        obtain ⟨htwd, hdwd⟩ := hedParts ex hxq
        rcases hs with hsq | hsq | hsq <;>
          rcases hc with hcq | hcq <;>
            simp only [expRender, hsq, hcq, List.nil_append, List.singleton_append,
              List.cons_append, true_or, or_true, if_true] <;>
          rw [if_neg (fun hcon => hip hcon.1)]
        case inl.inl =>
          obtain ⟨d, ds, hde⟩ : ∃ d ds, ex.digits = d :: ds := by
            cases hw : ex.digits with
            | nil => exact absurd hw hd
            | cons a as => exact ⟨a, as, rfl⟩
          obtain ⟨hd48, hd57⟩ : 48 ≤ d ∧ d ≤ 57 := by
            have := hdd d (by rw [hde]; simp)
            simp only [isDigitB, Bool.and_eq_true, decide_eq_true_eq] at this
            exact this
          rw [epMatch_digit ex.digits d ds hde hd48 hd57]
          simp only [htwd, hdwd]
          rw [if_neg (by simp [hd])]
          simp [mantOf, e10Of, fracDigits, hfq, hxq, hsq]
        case inl.inr =>
          obtain ⟨d, ds, hde⟩ : ∃ d ds, ex.digits = d :: ds := by
            cases hw : ex.digits with
            | nil => exact absurd hw hd
            | cons a as => exact ⟨a, as, rfl⟩
          obtain ⟨hd48, hd57⟩ : 48 ≤ d ∧ d ≤ 57 := by
            have := hdd d (by rw [hde]; simp)
            simp only [isDigitB, Bool.and_eq_true, decide_eq_true_eq] at this
            exact this
          rw [epMatch_digit ex.digits d ds hde hd48 hd57]
          simp only [htwd, hdwd]
          rw [if_neg (by simp [hd])]
          simp [mantOf, e10Of, fracDigits, hfq, hxq, hsq]
        all_goals
          simp only [htwd, hdwd]
          rw [if_neg (by simp [hd])]
          simp [mantOf, e10Of, fracDigits, hfq, hxq, hsq]

theorem goParseInt_pos_ok (d : Nat) (t : List Nat) (hall : ∀ c ∈ d :: t, isDigitB c = true)
    (hv : natOfDigits (d :: t) < 2 ^ 63) :
    goParseInt (d :: t) = .ok (natOfDigits (d :: t) : Int) := by
  have hd := hall d (by simp)
  simp only [isDigitB, Bool.and_eq_true, decide_eq_true_eq] at hd
  simp only [goParseInt]
  rw [if_neg (show ¬(d = 43 ∨ d = 45) by rintro (h | h) <;> omega)]
  have hloop := parseUint64Loop_ok (d :: t) hall 0 (2 ^ 64 - 1)
    (by
      have := natOfDigits_upper (d :: t) hall
      simp only [natOfDigits] at this ⊢
      have h64 : (2 : Nat) ^ 63 ≤ 2 ^ 64 - 1 := by norm_num
      have hvv := hv
      simp only [natOfDigits] at hvv
      omega)
  simp only [natOfDigits] at hloop ⊢
  rw [hloop]
  dsimp only
  have hne : (decide (d = 45) : Bool) = false := by
    simp only [decide_eq_false_iff_not]
    omega
  rw [hne]
  rw [if_neg (show ¬(false = false ∧ 2 ^ 63 ≤ (d :: t).foldl (fun x c => x * 10 + (c - 48)) 0) by
    rintro ⟨_, hcon⟩
    have hvv := hv
    simp only [natOfDigits] at hvv
    omega)]
  rw [if_neg (show ¬(false = true ∧ 2 ^ 63 < (d :: t).foldl (fun x c => x * 10 + (c - 48)) 0) by
    rintro ⟨hcon, _⟩
    exact absurd hcon (by decide))]
  rfl

theorem goParseInt_pos_range (d : Nat) (t : List Nat) (hall : ∀ c ∈ d :: t, isDigitB c = true)
    (hv : 2 ^ 63 ≤ natOfDigits (d :: t)) :
    goParseInt (d :: t) = .error .rangeErr := by
  have hd := hall d (by simp)
  simp only [isDigitB, Bool.and_eq_true, decide_eq_true_eq] at hd
  simp only [goParseInt]
  rw [if_neg (show ¬(d = 43 ∨ d = 45) by rintro (h | h) <;> omega)]
  have hne : (decide (d = 45) : Bool) = false := by
    simp only [decide_eq_false_iff_not]
    omega
  by_cases hv64 : natOfDigits (d :: t) ≤ 2 ^ 64 - 1
  · have hloop := parseUint64Loop_ok (d :: t) hall 0 (2 ^ 64 - 1)
      (by simpa [natOfDigits] using hv64)
    simp only [natOfDigits] at hloop
    rw [hloop]
    dsimp only
    rw [hne]
    rw [if_pos (show false = false ∧ 2 ^ 63 ≤ (d :: t).foldl (fun x c => x * 10 + (c - 48)) 0 from
      ⟨rfl, by simpa [natOfDigits] using hv⟩)]
  · have hloop := parseUint64Loop_range (d :: t) hall 0 (2 ^ 64 - 1) (by omega)
      (by simp only [natOfDigits] at hv64; omega)
    simp only [natOfDigits] at hloop
    rw [hloop]

theorem goParseUint_ok (d : Nat) (t : List Nat) (hall : ∀ c ∈ d :: t, isDigitB c = true)
    (hv : natOfDigits (d :: t) ≤ 2 ^ 64 - 1) :
    goParseUint (d :: t) = .ok (natOfDigits (d :: t)) := by
  simp only [goParseUint]
  have hloop := parseUint64Loop_ok (d :: t) hall 0 (2 ^ 64 - 1)
    (by simpa [natOfDigits] using hv)
  simp only [natOfDigits] at hloop ⊢
  rw [hloop]

theorem goParseUint_range (d : Nat) (t : List Nat) (hall : ∀ c ∈ d :: t, isDigitB c = true)
    (hv : 2 ^ 64 - 1 < natOfDigits (d :: t)) :
    goParseUint (d :: t) = .error .rangeErr := by
  simp only [goParseUint]
  have hloop := parseUint64Loop_range (d :: t) hall 0 (2 ^ 64 - 1) (by omega)
    (by simpa [natOfDigits] using hv)
  simp only [natOfDigits] at hloop
  rw [hloop]

theorem goParseInt_neg_ok (t : List Nat) (hall : ∀ c ∈ t, isDigitB c = true) (ht : t ≠ [])
    (hv : natOfDigits t ≤ 2 ^ 63) :
    goParseInt (45 :: t) = .ok (-(natOfDigits t : Int)) := by
  obtain ⟨c, t2, rfl⟩ : ∃ c t2, t = c :: t2 := by
    cases hq : t with
    | nil => exact absurd hq ht
    | cons a as => exact ⟨a, as, rfl⟩
  simp only [goParseInt]
  rw [if_pos (show (45 = 43 ∨ True) from Or.inr trivial)]
  dsimp only
  have hloop := parseUint64Loop_ok (c :: t2) hall 0 (2 ^ 64 - 1)
    (by
      have h64 : (2 : Nat) ^ 63 ≤ 2 ^ 64 - 1 := by norm_num
      have hvv := hv
      simp only [natOfDigits] at hvv ⊢
      omega)
  simp only [natOfDigits] at hloop ⊢
  rw [hloop]
  dsimp only
  rw [show (decide True : Bool) = true from rfl]
  rw [if_neg (show ¬(true = false ∧ 2 ^ 63 ≤ (c :: t2).foldl (fun x c => x * 10 + (c - 48)) 0) by
    rintro ⟨hcon, _⟩
    exact absurd hcon (by decide))]
  rw [if_neg (show ¬(true = true ∧ 2 ^ 63 < (c :: t2).foldl (fun x c => x * 10 + (c - 48)) 0) by
    rintro ⟨_, hcon⟩
    have hvv := hv
    simp only [natOfDigits] at hvv
    omega)]
  rfl

theorem goParseInt_neg_range (t : List Nat) (hall : ∀ c ∈ t, isDigitB c = true) (ht : t ≠ [])
    (hv : 2 ^ 63 < natOfDigits t) :
    goParseInt (45 :: t) = .error .rangeErr := by
  obtain ⟨c, t2, rfl⟩ : ∃ c t2, t = c :: t2 := by
    cases hq : t with
    | nil => exact absurd hq ht
    | cons a as => exact ⟨a, as, rfl⟩
  simp only [goParseInt]
  rw [if_pos (show (45 = 43 ∨ True) from Or.inr trivial)]
  dsimp only
  by_cases hv64 : natOfDigits (c :: t2) ≤ 2 ^ 64 - 1
  · have hloop := parseUint64Loop_ok (c :: t2) hall 0 (2 ^ 64 - 1)
      (by simpa [natOfDigits] using hv64)
    simp only [natOfDigits] at hloop
    rw [hloop]
    dsimp only
    rw [show (decide True : Bool) = true from rfl]
    rw [if_neg (show ¬(true = false ∧ 2 ^ 63 ≤ (c :: t2).foldl (fun x c => x * 10 + (c - 48)) 0) by
      rintro ⟨hcon, _⟩
      exact absurd hcon (by decide))]
    rw [if_pos (show true = true ∧ 2 ^ 63 < (c :: t2).foldl (fun x c => x * 10 + (c - 48)) 0 from
      ⟨rfl, by simpa [natOfDigits] using hv⟩)]
  · have hloop := parseUint64Loop_range (c :: t2) hall 0 (2 ^ 64 - 1) (by omega)
      (by simp only [natOfDigits] at hv64; omega)
    simp only [natOfDigits] at hloop
    rw [hloop]

/-! ### Bit-length bounds and the binary64 overflow case (claim C1) -/

theorem bitLenAux_zero (f : Nat) : bitLenAux f 0 = 0 := by
  cases f with
  | zero => rfl
  | succ f => rw [bitLenAux, if_pos rfl]

theorem bitLenAux_spec :
    ∀ f n : Nat, n ≤ f → 1 ≤ n →
      2 ^ (bitLenAux f n - 1) ≤ n ∧ n < 2 ^ bitLenAux f n ∧ 1 ≤ bitLenAux f n := by
  intro f
  induction f with
  | zero =>
    intro n h1 h2
    omega
  | succ f ih =>
    intro n hle hpos
    rw [bitLenAux, if_neg (by omega)]
    by_cases hn2 : n / 2 = 0
    · have hn1 : n = 1 := by omega
      subst hn1
      rw [hn2, bitLenAux_zero]
      refine ⟨by norm_num, by norm_num, by norm_num⟩
    · obtain ⟨h1, h2, h3⟩ := ih (n / 2) (by omega) (by omega)
      refine ⟨?_, ?_, by omega⟩
      · simp only [Nat.add_sub_cancel]
        have hk : 2 ^ bitLenAux f (n / 2) = 2 * 2 ^ (bitLenAux f (n / 2) - 1) := by
          rw [← pow_succ']
          congr 1
          omega
        rw [hk]
        omega
      · have hk : 2 ^ (bitLenAux f (n / 2) + 1) = 2 * 2 ^ bitLenAux f (n / 2) := by
          rw [pow_succ]
          ring
        rw [hk]
        omega

theorem bitLen_bounds (n : Nat) (h : 1 ≤ n) :
    2 ^ (bitLen n - 1) ≤ n ∧ n < 2 ^ bitLen n ∧ 1 ≤ bitLen n :=
  bitLenAux_spec n n (Nat.le_refl n) h

theorem floatBits64_overflow (neg : Bool) (mant : Nat) (e10 : Int)
    (hm : 1 ≤ mant) (he : 0 ≤ e10)
    (hbig : 2 ^ 1100 ≤ mant * 10 ^ e10.toNat) :
    floatBits64 neg mant e10 = none := by
  simp only [floatBits64]
  rw [if_neg (by omega)]
  have hmax1 : (max e10 0).toNat = e10.toNat := by
    rw [max_eq_left he]
  have hmax2 : (max (-e10) 0).toNat = 0 := by
    rw [max_eq_right (by omega)]
    rfl
  rw [hmax1, hmax2]
  rw [pow_zero]
  set num := mant * 10 ^ e10.toNat with hnumdef
  have hpos : 1 ≤ num := le_trans (by norm_num) hbig
  obtain ⟨hbl1, hbl2, hbl3⟩ := bitLen_bounds num hpos
  have hL : 1101 ≤ bitLen num := by
    by_contra hcon
    push_neg at hcon
    have hmono : (2 : Nat) ^ bitLen num ≤ 2 ^ 1100 :=
      Nat.pow_le_pow_right (by norm_num) (by omega)
    omega
  have hbl11 : bitLen 1 = 1 := rfl
  rw [hbl11, Nat.cast_one]
  set L := bitLen num with hLdef
  have hcmp : cmpPow num 1 ((L : Int) - 1) = true := by
    rw [cmpPow, if_pos (by omega)]
    have ht : ((L : Int) - 1).toNat = L - 1 := by omega
    rw [ht, one_mul]
    simpa using hbl1
  rw [hcmp]
  rw [if_pos rfl]
  rw [if_neg (show ¬((L : Int) - 1 < -1022) by omega)]
  have hsh0 : (max (52 - ((L : Int) - 1)) 0).toNat = 0 := by
    rw [max_eq_right (by omega)]
    rfl
  have hshn : (max (-(52 - ((L : Int) - 1))) 0).toNat = L - 53 := by
    rw [max_eq_left (by omega)]
    omega
  rw [hsh0, hshn, pow_zero, mul_one, one_mul]
  have hq52 : 2 ^ 52 ≤ num / 2 ^ (L - 53) := by
    rw [Nat.le_div_iff_mul_le (Nat.pos_pow_of_pos _ (by norm_num))]
    have hpow : (2 : Nat) ^ 52 * 2 ^ (L - 53) = 2 ^ (L - 1) := by
      rw [← pow_add]
      congr 1
      omega
    rw [hpow]
    exact hbl1
  set q := num / 2 ^ (L - 53) with hqdef
  set r := num % 2 ^ (L - 53) with hrdef
  set s := if 2 ^ (L - 53) < 2 * r then q + 1
    else if 2 * r < 2 ^ (L - 53) then q else if q % 2 = 1 then q + 1 else q with hsdef
  have hs52 : 2 ^ 52 ≤ s := by
    rw [hsdef]
    split
    · omega
    · split
      · omega
      · split
        · omega
        · omega
  by_cases hs53 : s = 2 ^ 53
  · rw [if_pos hs53]
    rw [if_neg (by norm_num)]
    rw [if_pos (show (1023 : Int) < (L : Int) - 1 + 1 by omega)]
  · rw [if_neg hs53]
    rw [if_neg (by omega)]
    rw [if_pos (show (1023 : Int) < (L : Int) - 1 by omega)]

/-- Claim C1 (amended): for every byte window consisting of a syntactically
valid JSON number immediately followed by an end-of-value byte, `parseNumber`
returns exactly the tag/value pair of the reference decimal decoder when the
value is within binary64 range, and the not-a-number signal `(0, 0)` when the
correctly rounded value overflows binary64 (there Go `strconv.ParseFloat`
reports a range error, which `parseNumber` treats as failure). -/
theorem claim1_number_decoding (n : JsonNum) (e : Nat) (rest : List Nat)
    (hn : ValidNum n) (he : isEOVByte e) :
    parseNumber (render n ++ e :: rest) = (refDecode n).getD (0, 0) := by
  obtain ⟨hip, hipd, hlz, hfr, hex⟩ := validNum_parts n hn
  obtain ⟨d0, ipt, hipe⟩ : ∃ d0 ipt, n.ip = d0 :: ipt := by
    cases hq : n.ip with
    | nil => exact absurd hq hip
    | cons a as => exact ⟨a, as, rfl⟩
  have hd0 : isDigitB d0 = true := hipd d0 (by rw [hipe]; simp)
  have hd0b : 48 ≤ d0 ∧ d0 ≤ 57 := by
    simpa [isDigitB] using hd0
  have hscan := scanNum_append_eov e rest he (render n) 0 0 (goodScanB_render n hn)
  simp only [Nat.zero_add] at hscan
  have hposlen : 1 ≤ (render n).length := by
    rw [render, hipe]
    simp only [List.length_append, List.length_cons]
    omega
  have htoklen : (render n ++ e :: rest).take (render n).length = render n :=
    List.take_left (render n) (e :: rest)
  simp only [parseNumber, hscan, htoklen]
  rw [if_neg (by omega)]
  by_cases hfe : n.frac = none ∧ n.exp = none
  · -- integer notation
    obtain ⟨hf, he2⟩ := hfe
    have hflt0 : foundAcc 0 (render n) &&& isFloatOnlyFlag = 0 := render_float_zero n hn hf he2
    have hmant : mantOf n = natOfDigits n.ip := by
      simp [mantOf, fracDigits, hf]
    have he10 : e10Of n = 0 := by
      simp [e10Of, fracDigits, hf, he2]
    have hallip : ∀ c ∈ d0 :: ipt, isDigitB c = true := by
      rw [← hipe]
      exact hipd
    have hub : natOfDigits (d0 :: ipt) < 10 ^ (ipt.length + 1) := by
      have := natOfDigits_upper (d0 :: ipt) hallip
      simpa using this
    cases hneg : n.neg with
    | false =>
      have hrenu : render n = n.ip := by
        rw [render_int n hf he2, hneg]
        simp
      have hminus : foundAcc 0 (render n) &&& isMinusFlag = 0 :=
        render_minus_zero n hn hf he2 hneg
      have hlenu : (render n).length = ipt.length + 1 := by
        rw [hrenu, hipe]
        simp
      by_cases hle : (render n).length ≤ 20
      · rw [if_pos ⟨hflt0, hle⟩, if_pos hminus]
        rw [if_neg ?hguardA]
        case hguardA =>
          rintro ⟨h1, h2⟩
          rw [hlenu] at h1
          rw [hrenu, hipe] at h2
          simp only [List.getD_cons_zero] at h2
          rcases hlz with hsz | hhd
          · rw [hipe] at hsz
            simp only [List.length_cons] at hsz
            omega
          · rw [hipe] at hhd
            simp only [List.headD_cons] at hhd
            exact hhd h2
        rw [hrenu, hipe]
        by_cases hv1 : natOfDigits (d0 :: ipt) < 2 ^ 63
        · simp only [parseNumInt, goParseInt_pos_ok d0 ipt hallip hv1]
          simp only [refDecode]
          rw [if_pos (show n.frac = none ∧ n.exp = none from ⟨hf, he2⟩)]
          rw [hneg, hipe]
          rw [show (if (false = true) then (-1 : Int) else 1) = 1 from rfl]
          simp only [one_mul]
          rw [if_pos ?hbnd]
          case hbnd =>
            have hc : (natOfDigits (d0 :: ipt) : Int) < 2 ^ 63 := by exact_mod_cast hv1
            have h0 : (0 : Int) ≤ (natOfDigits (d0 :: ipt) : Int) := Int.natCast_nonneg _
            constructor
            · omega
            · omega
          simp
        · push_neg at hv1
          simp only [parseNumInt, goParseInt_pos_range d0 ipt hallip hv1, eq_self_iff_true, if_true]
          rw [if_pos (show foundAcc 0 (d0 :: ipt) &&& isMinusFlag = 0 by
            rw [← hipe, ← hrenu]
            exact hminus)]
          by_cases hv2 : natOfDigits (d0 :: ipt) ≤ 2 ^ 64 - 1
          · simp only [goParseUint_ok d0 ipt hallip hv2]
            simp only [refDecode]
            rw [if_pos (show n.frac = none ∧ n.exp = none from ⟨hf, he2⟩)]
            rw [hneg, hipe]
            rw [show (if (false = true) then (-1 : Int) else 1) = 1 from rfl]
            simp only [one_mul]
            rw [if_neg ?hbnd2]
            case hbnd2 =>
              rintro ⟨_, hcon⟩
              have hc : (2 : Int) ^ 63 ≤ (natOfDigits (d0 :: ipt) : Int) := by
                exact_mod_cast hv1
              omega
            rw [if_pos ?hbnd3]
            case hbnd3 =>
              have h0 : (0 : Int) ≤ (natOfDigits (d0 :: ipt) : Int) := Int.natCast_nonneg _
              have hc : ((natOfDigits (d0 :: ipt)) : Int) ≤ ((2 ^ 64 - 1 : Nat) : Int) := by
                exact_mod_cast hv2
              have h64 : ((2 ^ 64 - 1 : Nat) : Int) = 2 ^ 64 - 1 := by norm_num
              constructor
              · omega
              · omega
            simp
          · push_neg at hv2
            simp only [goParseUint_range d0 ipt hallip hv2, eq_self_iff_true, if_true]
            simp only [floatFinish]
            rw [if_neg ?hguardB]
            case hguardB =>
              rintro ⟨h1, h2, h3⟩
              simp only [List.getD_cons_zero] at h2
              rcases hlz with hsz | hhd
              · rw [hipe] at hsz
                simp only [List.length_cons] at hsz
                have h10 : (10 : Nat) ^ (ipt.length + 1) ≤ 10 := by
                  calc (10 : Nat) ^ (ipt.length + 1) ≤ 10 ^ 1 :=
                        Nat.pow_le_pow_right (by omega) hsz
                    _ = 10 := by norm_num
                have hsm : natOfDigits (d0 :: ipt) < 10 := lt_of_lt_of_le hub h10
                have h64 : (2 : Nat) ^ 64 - 1 = 18446744073709551615 := by norm_num
                omega
              · rw [hipe] at hhd
                simp only [List.headD_cons] at hhd
                exact hhd h2
            have hrfl : goParseFloat (d0 :: ipt) = floatBits64 n.neg (mantOf n) (e10Of n) := by
              rw [← hipe, ← hrenu]
              exact goParseFloat_render n hn
            rw [hrfl, hmant, he10, hneg, hipe]
            simp only [refDecode]
            rw [if_pos (show n.frac = none ∧ n.exp = none from ⟨hf, he2⟩)]
            rw [hneg, hipe]
            rw [show (if (false = true) then (-1 : Int) else 1) = 1 from rfl]
            simp only [one_mul]
            rw [if_neg ?hbnd4]
            case hbnd4 =>
              rintro ⟨_, hcon⟩
              have hc : ((2 ^ 64 - 1 : Nat) : Int) < (natOfDigits (d0 :: ipt) : Int) := by
                exact_mod_cast hv2
              have h64 : ((2 ^ 64 - 1 : Nat) : Int) = 2 ^ 64 - 1 := by norm_num
              omega
            rw [if_neg ?hbnd5]
            case hbnd5 =>
              rintro ⟨_, hcon⟩
              have hc : ((2 ^ 64 - 1 : Nat) : Int) < (natOfDigits (d0 :: ipt) : Int) := by
                exact_mod_cast hv2
              have h64 : ((2 ^ 64 - 1 : Nat) : Int) = 2 ^ 64 - 1 := by norm_num
              omega
            have hor : (TagFloat <<< JSONTAGOFFSET ||| FloatOverflowedInteger) |||
                FloatOverflowedInteger = TagFloat <<< JSONTAGOFFSET ||| FloatOverflowedInteger := by
              rw [Nat.lor_assoc]
              norm_num
            rw [hor]
            cases hfb : floatBits64 false (natOfDigits (d0 :: ipt)) 0 <;> simp
      · -- unsigned, length > 20: straight to the float path
        rw [if_neg (fun hcon => absurd hcon.2 hle), if_pos hflt0]
        simp only [floatFinish]
        have hlen21 : 21 ≤ ipt.length + 1 := by
          rw [← hlenu]
          omega
        have hhd : d0 ≠ 48 := by
          rcases hlz with hsz | hhd
          · rw [hipe] at hsz
            simp only [List.length_cons] at hsz
            omega
          · rw [hipe] at hhd
            simpa using hhd
        rw [if_neg ?hguardC]
        case hguardC =>
          rintro ⟨h1, h2, h3⟩
          rw [hrenu, hipe] at h2
          simp only [List.getD_cons_zero] at h2
          exact hhd h2
        have hlow : 10 ^ 20 ≤ natOfDigits (d0 :: ipt) := by
          have hl1 := natOfDigits_lower d0 ipt (by omega)
          have hl2 : (10 : Nat) ^ 20 ≤ 10 ^ ipt.length :=
            Nat.pow_le_pow_right (by omega) (by omega)
          exact le_trans hl2 hl1
        have hbig : 2 ^ 64 - 1 < natOfDigits (d0 :: ipt) :=
          lt_of_lt_of_le (by norm_num) hlow
        rw [goParseFloat_render n hn, hmant, he10, hneg, hipe]
        simp only [refDecode]
        rw [if_pos (show n.frac = none ∧ n.exp = none from ⟨hf, he2⟩)]
        rw [hneg, hipe]
        rw [show (if (false = true) then (-1 : Int) else 1) = 1 from rfl]
        simp only [one_mul]
        rw [if_neg ?hbnd6]
        case hbnd6 =>
          rintro ⟨_, hcon⟩
          have hc : ((2 ^ 64 - 1 : Nat) : Int) < (natOfDigits (d0 :: ipt) : Int) := by
            exact_mod_cast hbig
          have h64 : ((2 ^ 64 - 1 : Nat) : Int) = 2 ^ 64 - 1 := by norm_num
          omega
        rw [if_neg ?hbnd7]
        case hbnd7 =>
          rintro ⟨_, hcon⟩
          have hc : ((2 ^ 64 - 1 : Nat) : Int) < (natOfDigits (d0 :: ipt) : Int) := by
            exact_mod_cast hbig
          have h64 : ((2 ^ 64 - 1 : Nat) : Int) = 2 ^ 64 - 1 := by norm_num
          omega
        cases hfb : floatBits64 false (natOfDigits (d0 :: ipt)) 0 <;> simp
    | true =>
      have hrenn : render n = 45 :: n.ip := by
        rw [render_int n hf he2, hneg]
        simp
      have hminus : foundAcc 0 (render n) &&& isMinusFlag ≠ 0 := render_minus_ne n hneg
      have hlenn : (render n).length = ipt.length + 2 := by
        rw [hrenn, hipe]
        simp
      by_cases hle : (render n).length ≤ 20
      · rw [if_pos ⟨hflt0, hle⟩, if_neg hminus]
        rw [if_neg ?hguardD]
        case hguardD =>
          rintro ⟨h1, h2⟩
          rw [hlenn] at h1
          rw [hrenn, hipe] at h2
          simp only [List.getD_cons_succ, List.getD_cons_zero] at h2
          rcases hlz with hsz | hhd
          · rw [hipe] at hsz
            simp only [List.length_cons] at hsz
            omega
          · rw [hipe] at hhd
            simp only [List.headD_cons] at hhd
            exact hhd h2
        rw [hrenn, hipe]
        by_cases hv1 : natOfDigits (d0 :: ipt) ≤ 2 ^ 63
        · simp only [parseNumInt,
            goParseInt_neg_ok (d0 :: ipt) hallip (by simp) hv1]
          simp only [refDecode]
          rw [if_pos (show n.frac = none ∧ n.exp = none from ⟨hf, he2⟩)]
          rw [hneg, hipe]
          rw [show (if (true = true) then (-1 : Int) else 1) = -1 from rfl]
          simp only [neg_one_mul]
          rw [if_pos ?hbnd8]
          case hbnd8 =>
            have hc : (natOfDigits (d0 :: ipt) : Int) ≤ 2 ^ 63 := by exact_mod_cast hv1
            have h0 : (0 : Int) ≤ (natOfDigits (d0 :: ipt) : Int) := Int.natCast_nonneg _
            constructor
            · omega
            · omega
          simp
        · push_neg at hv1
          simp only [parseNumInt,
            goParseInt_neg_range (d0 :: ipt) hallip (by simp) hv1, eq_self_iff_true, if_true]
          rw [if_neg (show ¬foundAcc 0 (45 :: d0 :: ipt) &&& isMinusFlag = 0 by
            rw [← hipe, ← hrenn]
            exact hminus)]
          simp only [floatFinish]
          rw [if_neg ?hguardE]
          case hguardE =>
            rintro ⟨h1, h2, h3⟩
            simp only [List.getD_cons_zero] at h2
            omega
          have hrfl : goParseFloat (45 :: d0 :: ipt) = floatBits64 n.neg (mantOf n) (e10Of n) := by
            rw [← hipe, ← hrenn]
            exact goParseFloat_render n hn
          rw [hrfl, hmant, he10, hneg, hipe]
          simp only [refDecode]
          rw [if_pos (show n.frac = none ∧ n.exp = none from ⟨hf, he2⟩)]
          rw [hneg, hipe]
          rw [show (if (true = true) then (-1 : Int) else 1) = -1 from rfl]
          simp only [neg_one_mul]
          rw [if_neg ?hbnd9]
          case hbnd9 =>
            rintro ⟨hcon, _⟩
            have hc : (2 : Int) ^ 63 < (natOfDigits (d0 :: ipt) : Int) := by exact_mod_cast hv1
            omega
          rw [if_neg ?hbnd10]
          case hbnd10 =>
            rintro ⟨hcon, _⟩
            have hc : (2 : Int) ^ 63 < (natOfDigits (d0 :: ipt) : Int) := by exact_mod_cast hv1
            omega
          cases hfb : floatBits64 true (natOfDigits (d0 :: ipt)) 0 <;> simp
      · rw [if_neg (fun hcon => absurd hcon.2 hle), if_pos hflt0]
        simp only [floatFinish]
        rw [if_neg ?hguardF]
        case hguardF =>
          rintro ⟨h1, h2, h3⟩
          rw [hrenn] at h2
          simp only [List.getD_cons_zero] at h2
          omega
        have hlen20 : 20 ≤ ipt.length + 1 := by
          rw [hlenn] at hle
          omega
        have hhd : d0 ≠ 48 := by
          rcases hlz with hsz | hhd
          · rw [hipe] at hsz
            simp only [List.length_cons] at hsz
            omega
          · rw [hipe] at hhd
            simpa using hhd
        have hlow : 10 ^ 19 ≤ natOfDigits (d0 :: ipt) := by
          have hl1 := natOfDigits_lower d0 ipt (by omega)
          have hl2 : (10 : Nat) ^ 19 ≤ 10 ^ ipt.length :=
            Nat.pow_le_pow_right (by omega) (by omega)
          exact le_trans hl2 hl1
        have hbig : 2 ^ 63 < natOfDigits (d0 :: ipt) :=
          lt_of_lt_of_le (by norm_num) hlow
        rw [goParseFloat_render n hn, hmant, he10, hneg, hipe]
        simp only [refDecode]
        rw [if_pos (show n.frac = none ∧ n.exp = none from ⟨hf, he2⟩)]
        rw [hneg, hipe]
        rw [show (if (true = true) then (-1 : Int) else 1) = -1 from rfl]
        simp only [neg_one_mul]
        rw [if_neg ?hbnd11]
        case hbnd11 =>
          rintro ⟨hcon, _⟩
          have hc : (2 : Int) ^ 63 < (natOfDigits (d0 :: ipt) : Int) := by exact_mod_cast hbig
          omega
        rw [if_neg ?hbnd12]
        case hbnd12 =>
          rintro ⟨hcon, _⟩
          have hc : (2 : Int) ^ 63 < (natOfDigits (d0 :: ipt) : Int) := by exact_mod_cast hbig
          omega
        cases hfb : floatBits64 true (natOfDigits (d0 :: ipt)) 0 <;> simp
  · -- float notation
    have hne2 : foundAcc 0 (render n) &&& isFloatOnlyFlag ≠ 0 :=
      render_float_ne n hn (not_and_or.mp hfe)
    rw [if_neg (fun hcon => hne2 hcon.1), if_neg hne2]
    simp only [floatFinish]
    rw [if_neg ?hguardG]
    case hguardG =>
      rintro ⟨h1, h2, h3⟩
      cases hneg : n.neg with
      | true =>
        have hrender : render n = 45 :: ((n.ip ++ fracRender n.frac) ++ expRender n.exp) := by
          rw [render, hneg]
          simp
        rw [hrender] at h2
        simp only [List.getD_cons_zero] at h2
        omega
      | false =>
        have hrcons : render n = d0 :: ((ipt ++ fracRender n.frac) ++ expRender n.exp) := by
          rw [render, hneg, hipe]
          simp
        rw [hrcons] at h2 h3
        simp only [List.getD_cons_zero, List.getD_cons_succ] at h2 h3
        rcases hlz with hsz | hhd
        · rw [hipe] at hsz
          simp only [List.length_cons] at hsz
          have hiptnil : ipt = [] := by
            cases ipt with
            | nil => rfl
            | cons a as => simp at hsz
          rw [hiptnil] at h3
          simp only [List.nil_append] at h3
          rcases hfc : n.frac with _ | l
          · obtain ⟨ex, hxq⟩ : ∃ ex, n.exp = some ex := by
              cases hq : n.exp with
              | none => exact absurd ⟨hfc, hq⟩ hfe
              | some ex => exact ⟨ex, rfl⟩
            obtain ⟨hc, _, _, _⟩ := hex ex hxq
            rw [hfc, hxq] at h3
            simp only [fracRender, expRender, List.nil_append] at h3
            simp only [List.getD_cons_zero] at h3
            rcases hc with hcq | hcq <;> rw [hcq] at h3 <;> exact absurd h3 (by decide)
          · rw [hfc] at h3
            simp only [fracRender, List.cons_append] at h3
            simp only [List.getD_cons_zero] at h3
            exact absurd h3 (by decide)
        · rw [hipe] at hhd
          simp only [List.headD_cons] at hhd
          exact hhd h2
    rw [goParseFloat_render n hn]
    simp only [refDecode]
    rw [if_neg hfe]
    cases hfb : floatBits64 n.neg (mantOf n) (e10Of n) <;> simp

/-- Claim C1 counterexample: `1e999` followed by a comma is a syntactically
valid JSON number window, yet `parseNumber` returns the not-a-number pair
`(0, 0)` — tag `TagEnd`, none of `Integer`/`Uint`/`Float` — because the value
overflows binary64 and the `strconv.ParseFloat` range error is treated as
failure. -/
theorem claim1_counterexample :
    ValidNum numOneE999 ∧ isEOVByte 44 ∧
    render numOneE999 = [49, 101, 57, 57, 57] ∧
    parseNumber (render numOneE999 ++ [44]) = (TagEnd <<< JSONTAGOFFSET, 0) ∧
    TagEnd ≠ TagInteger ∧ TagEnd ≠ TagUint ∧ TagEnd ≠ TagFloat := by
  refine ⟨rfl, rfl, rfl, ?_, by decide, by decide, by decide⟩
  have hrend : render numOneE999 = [49, 101, 57, 57, 57] := rfl
  rw [hrend]
  have hscan : scanNum ([49, 101, 57, 57, 57] ++ [44]) 0 0 = some (19, 5) := by decide
  simp only [parseNumber, hscan]
  rw [if_neg (by decide)]
  rw [if_neg (by decide)]
  rw [if_neg (by decide)]
  have htk : ([49, 101, 57, 57, 57] ++ [44]).take 5 = [49, 101, 57, 57, 57] := by decide
  rw [htk]
  simp only [floatFinish]
  rw [if_neg (by decide)]
  have hg : goParseFloat [49, 101, 57, 57, 57] = floatBits64 false 1 999 := by
    have h := goParseFloat_render numOneE999 rfl
    rw [hrend] at h
    have hm : mantOf numOneE999 = 1 := rfl
    have he : e10Of numOneE999 = 999 := by decide
    rw [hm, he] at h
    exact h
  rw [hg]
  rw [floatBits64_overflow false 1 999 (by norm_num) (by norm_num) ?hbig]
  case hbig =>
    have h8 : (8 : Nat) ^ 999 ≤ 10 ^ 999 := Nat.pow_le_pow_left (by norm_num) 999
    have h2 : (2 : Nat) ^ 1100 ≤ 8 ^ 999 := by
      rw [show (8 : Nat) = 2 ^ 3 from by norm_num, ← pow_mul]
      exact Nat.pow_le_pow_right (by norm_num) (by norm_num)
    calc (2 : Nat) ^ 1100 ≤ 8 ^ 999 := h2
      _ ≤ 10 ^ 999 := h8
      _ = 1 * 10 ^ (999 : Int).toNat := by
          rw [one_mul]
          rfl
  rfl

/-- Claim C1 witness: the number `0.5` followed by a comma decodes to the
reference value. -/
theorem claim1_witness :
    ValidNum numHalf ∧ isEOVByte 44 ∧
    parseNumber (render numHalf ++ 44 :: []) = (refDecode numHalf).getD (0, 0) :=
  ⟨rfl, rfl, claim1_number_decoding numHalf 44 [] rfl rfl⟩

end SimdJson
